import Mathlib

/-!
Verification of the `caddy-user-ip` tracking store (`storage.go`, current
version: the one with per-IP timestamps and `Configure`).

Shallow embedding conventions:
- Go maps are modelled as association lists (`lookupKey` / `insertKey` /
  `eraseKey`); `insertKey` overwrites the existing binding like a Go map
  assignment, `eraseKey` models `delete`.
- The `clockwork` clock is modelled by passing `now : Int` (Unix seconds) and
  the formatted ISO string explicitly; logging calls are no-ops and omitted.
- The asynchronous `go s.writeImmediately()` calls are fire-and-forget disk
  writes; they do not touch the in-memory maps and are outside this state
  model (`PersistToDisk` itself is modelled separately).
- Fallible filesystem and JSON operations are modelled with `Except` /
  explicit outcome parameters.
-/

namespace CaddyUserIP

/-- IPData from storage.go: an IP address with its timestamp information. -/
structure IPData where
  ip : String
  lastSeen : Int
  lastSeenISO : String
deriving Repr, DecidableEq

/-- UserData from storage.go: list of historical IPs with timestamps (newest
first), plus a principal-level timestamp kept only for backward
compatibility (`last_seen,omitempty`). -/
structure UserData where
  ips : List IPData
  lastSeen : Int
deriving Repr, DecidableEq

/-- legacyUserData from storage.go: the old on-disk format (plain IP strings
plus one principal-level timestamp). -/
structure LegacyUserData where
  ips : List String
  lastSeen : Int
deriving Repr, DecidableEq

/-- Association-list lookup, modelling Go map indexing `m[k]`. -/
def lookupKey {α : Type} : List (String × α) → String → Option α
  | [], _ => none
  | (k', v) :: rest, k => if k' = k then some v else lookupKey rest k

/-- Association-list insertion, modelling Go map assignment `m[k] = v`. -/
def insertKey {α : Type} : List (String × α) → String → α → List (String × α)
  | [], k, v => [(k, v)]
  | (k', v') :: rest, k, v =>
      if k' = k then (k, v) :: rest else (k', v') :: insertKey rest k v

/-- Association-list removal, modelling Go `delete(m, k)`. -/
def eraseKey {α : Type} : List (String × α) → String → List (String × α)
  | [], _ => []
  | (k', v') :: rest, k =>
      if k' = k then eraseKey rest k else (k', v') :: eraseKey rest k

/-- UserIPStorage from storage.go (current version). The mutex, logger and
clock are concurrency/IO artefacts and are not part of the state; the
`configured` flag only guards double configuration. -/
structure Store where
  userData : List (String × UserData)
  ipToUsers : List (String × List String)
  maxIPsPerUser : Nat
  userDataTTL : Nat
  persistPath : String
  dirty : Bool
  debugLogging : Bool
deriving Repr, DecidableEq

/-- The IP history the store currently holds for a principal (empty when the
principal is not tracked). -/
def history (s : Store) (u : String) : List IPData :=
  match lookupKey s.userData u with
  | some ud => ud.ips
  | none => []

/-- Insertion of a user into a reverse-index bucket, modelling storage.go
lines 477-481: create the bucket if absent, then `s.ipToUsers[ip][email] = {}`
(idempotent set insertion). -/
def addUserToIP (idx : List (String × List String)) (ip user : String) :
    List (String × List String) :=
  match lookupKey idx ip with
  | none => insertKey idx ip [user]
  | some users => insertKey idx ip (if user ∈ users then users else users ++ [user])

/-- Removal of a user from a reverse-index bucket, modelling the pattern at
storage.go lines 468-474 and 757-764: `delete(users, email)`, and delete the
whole bucket if it became empty. -/
def removeUserFromIP (idx : List (String × List String)) (ip user : String) :
    List (String × List String) :=
  match lookupKey idx ip with
  | none => idx
  | some users =>
      let users' := users.filter (fun v => v ≠ user)
      if users' = [] then eraseKey idx ip else insertKey idx ip users'

/-- Removal of one user from the buckets of a whole list of IP entries
(the per-user loops in eviction/expiry). -/
def removeAllIPs (idx : List (String × List String)) (user : String)
    (ips : List IPData) : List (String × List String) :=
  ips.foldl (fun i d => removeUserFromIP i d.ip user) idx

/-- The most recent IP timestamp of a history, as computed by
cleanupExpiredUsers (storage.go lines 733-738): a running maximum started
at 0. -/
def mostRecentSeen (ips : List IPData) : Int :=
  ips.foldl (fun m d => if d.lastSeen > m then d.lastSeen else m) 0

/-- One iteration of the cleanupExpiredUsers loop body (storage.go lines
731-776) for the map entry `(email, ud)`: if the most recent sighting is
strictly older than the expiration time, remove all the user's IPs from the
reverse index, delete the user, and mark dirty. -/
def expireUser (s : Store) (email : String) (ud : UserData) (expireTime : Int) :
    Store :=
  if mostRecentSeen ud.ips < expireTime then
    { s with
      ipToUsers := removeAllIPs s.ipToUsers email ud.ips
      userData := eraseKey s.userData email
      dirty := true }
  else s

/-- cleanupExpiredUsers from storage.go (lines 723-778): sweep every tracked
principal against `expireTime = now - userDataTTL`. -/
def cleanupExpiredUsers (s : Store) (now : Int) : Store :=
  let expireTime := now - (s.userDataTTL : Int)
  s.userData.foldl (fun acc p => expireUser acc p.1 p.2 expireTime) s

/-- The timestamp refresh applied to an already-present IP entry
(storage.go lines 411-415): update `LastSeen`, and update `LastSeenISO` only
when debug logging is enabled (otherwise the old ISO string is retained). -/
def refreshEntry (d : IPData) (now : Int) (nowISO : String) (debug : Bool) :
    IPData :=
  { d with lastSeen := now, lastSeenISO := if debug then nowISO else d.lastSeenISO }

/-- Locate the first entry whose `.ip` equals `ip` and return it together with
the rest of the list (order preserved). This packages the source's
`foundIndex` scan (lines 401-407) with its two uses: for `foundIndex = 0` the
source updates the head in place, for `foundIndex > 0` it removes the entry
and prepends it — in both cases the new history is the updated entry followed
by the remaining entries in their original order. -/
def extractIP : List IPData → String → Option (IPData × List IPData)
  | [], _ => none
  | d :: rest, ip =>
      if d.ip = ip then some (d, rest)
      else
        match extractIP rest ip with
        | none => none
        | some (e, rest') => some (e, d :: rest')

/-- The fresh IP entry built at storage.go lines 440-446 (LastSeenISO is the
already debug-gated string). -/
def newIPEntry (ip : String) (now : Int) (iso : String) : IPData :=
  { ip := ip, lastSeen := now, lastSeenISO := iso }

/-- The zero IPData value (only used as the unreachable `getD` default for an
index access the source guards by the length check). -/
def zeroIPEntry : IPData :=
  { ip := "", lastSeen := 0, lastSeenISO := "" }

/-- The new-IP branch of AddUserIP (storage.go lines 439-487): build the new
entry, prepend it, trim past `maxIPsPerUser` (removing the evicted IP's
reverse-index membership), and insert the principal into the new IP's
bucket. -/
def addNewIPEntry (s : Store) (email : String) (ud : UserData) (ip : String)
    (now : Int) (iso : String) : Store × Bool :=
  let newEntry := newIPEntry ip now iso
  let ips1 := newEntry :: ud.ips
  let trimmed :=
    if s.maxIPsPerUser < ips1.length then
      let removed := ips1.getD s.maxIPsPerUser zeroIPEntry
      (ips1.take s.maxIPsPerUser, removeUserFromIP s.ipToUsers removed.ip email)
    else (ips1, s.ipToUsers)
  let idx := addUserToIP trimmed.2 ip email
  ({ s with
      userData := insertKey s.userData email { ud with ips := trimmed.1 }
      ipToUsers := idx
      dirty := true }, true)

/-- AddUserIP from storage.go (lines 380-494) without the final expiry sweep:
everything up to and including the `dirty` update and the return value. The
found-IP branch returns `false` early (before the sweep); the new-IP branch
returns `true`. -/
def addUserIPCore (s : Store) (email ip : String) (now : Int) (nowISO : String) :
    Store × Bool :=
  match lookupKey s.userData email with
  | none => addNewIPEntry s email { ips := [], lastSeen := 0 } ip now
      (if s.debugLogging then nowISO else "")
  | some ud =>
      match extractIP ud.ips ip with
      | some (e, rest) =>
          let ips' := refreshEntry e now nowISO s.debugLogging :: rest
          ({ s with
              userData := insertKey s.userData email { ud with ips := ips' }
              dirty := true }, false)
      | none => addNewIPEntry s email ud ip now
          (if s.debugLogging then nowISO else "")

/-- AddUserIP from storage.go (lines 380-494): the core, followed by the
expiry sweep, which runs only on the new-IP path (the found-IP branch
returns before line 489) and only when a TTL is configured. -/
def addUserIP (s : Store) (email ip : String) (now : Int) (nowISO : String) :
    Store × Bool :=
  let core := addUserIPCore s email ip now nowISO
  if core.2 && decide (0 < s.userDataTTL) then (cleanupExpiredUsers core.1 now, core.2)
  else core

/-- HasIP from storage.go (lines 497-503): key-existence test on the reverse
index. -/
def hasIP (s : Store) (ip : String) : Bool :=
  (lookupKey s.ipToUsers ip).isSome

/-- GetIPsForUser from storage.go (lines 520-533): the IP strings of the
principal's history, newest first. -/
def getIPsForUser (s : Store) (email : String) : List String :=
  match lookupKey s.userData email with
  | some ud => ud.ips.map IPData.ip
  | none => []

/-! Persistence layer. Serialization is modelled at the level of JSON values:
`Encode` produces the JSON document that `json.MarshalIndent` would print and
`Decode` consumes the JSON document that the byte payload parses to. Go's
`json.Unmarshal` records the first type error but keeps scanning; since
LoadFromDisk only distinguishes `err == nil` from `err != nil` and discards
the partially-filled value on error, the short-circuiting `Except` decoders
below are observationally equivalent for every use in the source. Field-name
matching is modelled as exact-tag matching. JSON `null` follows Go: it resets
maps/slices to nil and is a no-op on strings and integers. -/

/-- JSON documents (object fields in syntactic order). -/
inductive Json where
  | null
  | bool (b : Bool)
  | num (n : Int)
  | str (s : String)
  | arr (elems : List Json)
  | obj (fields : List (String × Json))

/-- The persisted snapshot: the `user_data` map of persistData, as an
association list. -/
abbrev Snapshot := List (String × UserData)

/-- Ordered insertion by key (ascending), used to model the sorted order in
which `json.Marshal` writes Go map keys. -/
def insertSortedKey {α : Type} (p : String × α) :
    List (String × α) → List (String × α)
  | [] => [p]
  | q :: rest => if p.1 ≤ q.1 then p :: q :: rest else q :: insertSortedKey p rest

/-- Key-sorting of an association list (insertion sort), modelling
`json.Marshal`'s sorted map-key output order. -/
def sortByKey {α : Type} (m : List (String × α)) : List (String × α) :=
  m.foldr insertSortedKey []

/-- Marshalling of an IPData value: fields in struct order, with
`last_seen_iso,omitempty`. -/
def encodeIPData (d : IPData) : Json :=
  .obj ([("ip", .str d.ip), ("last_seen", .num d.lastSeen)] ++
    (if d.lastSeenISO = "" then [] else [("last_seen_iso", .str d.lastSeenISO)]))

/-- Marshalling of a UserData value: the `ips` array plus the deprecated
`last_seen,omitempty` field. -/
def encodeUserData (ud : UserData) : Json :=
  .obj ([("ips", .arr (ud.ips.map encodeIPData))] ++
    (if ud.lastSeen = 0 then [] else [("last_seen", .num ud.lastSeen)]))

/-- Marshalling of persistData: one `user_data` object whose keys appear in
sorted order (Go map marshalling). -/
def encodePersistData (snap : Snapshot) : Json :=
  .obj [("user_data", .obj ((sortByKey snap).map (fun p => (p.1, encodeUserData p.2))))]

/-- Unmarshalling of a JSON value into an IPData struct: an object is decoded
field by field starting from the zero value, unknown fields are ignored,
`null` leaves the struct at its zero value, anything else is a type error. -/
def decodeIPData : Json → Except String IPData
  | .null => .ok { ip := "", lastSeen := 0, lastSeenISO := "" }
  | .obj fields =>
      fields.foldlM (fun (acc : IPData) f =>
        if f.1 = "ip" then
          match f.2 with
          | .null => .ok acc
          | .str s => .ok { acc with ip := s }
          | _ => .error "json: cannot unmarshal value into field ip of type string"
        else if f.1 = "last_seen" then
          match f.2 with
          | .null => .ok acc
          | .num n => .ok { acc with lastSeen := n }
          | _ => .error "json: cannot unmarshal value into field last_seen of type int64"
        else if f.1 = "last_seen_iso" then
          match f.2 with
          | .null => .ok acc
          | .str s => .ok { acc with lastSeenISO := s }
          | _ => .error "json: cannot unmarshal value into field last_seen_iso of type string"
        else .ok acc)
        { ip := "", lastSeen := 0, lastSeenISO := "" }
  | _ => .error "json: cannot unmarshal value into type IPData"

/-- Element-wise unmarshalling of a JSON array into IPData values (Go scans
elements in order; the first type error is reported). -/
def decodeIPArray : List Json → Except String (List IPData)
  | [] => .ok []
  | j :: rest =>
      match decodeIPData j with
      | .error e => .error e
      | .ok d =>
          match decodeIPArray rest with
          | .error e => .error e
          | .ok l => .ok (d :: l)

/-- Unmarshalling of a JSON value into a `[]IPData` slice. -/
def decodeIPList : Json → Except String (List IPData)
  | .null => .ok []
  | .arr elems => decodeIPArray elems
  | _ => .error "json: cannot unmarshal value into type list of IPData"

/-- Unmarshalling of a JSON value into a UserData struct. -/
def decodeUserData : Json → Except String UserData
  | .null => .ok { ips := [], lastSeen := 0 }
  | .obj fields =>
      fields.foldlM (fun (acc : UserData) f =>
        if f.1 = "ips" then
          match decodeIPList f.2 with
          | .ok l => .ok { acc with ips := l }
          | .error e => .error e
        else if f.1 = "last_seen" then
          match f.2 with
          | .null => .ok acc
          | .num n => .ok { acc with lastSeen := n }
          | _ => .error "json: cannot unmarshal value into field last_seen of type int64"
        else .ok acc)
        { ips := [], lastSeen := 0 }
  | _ => .error "json: cannot unmarshal value into type UserData"

/-- Entry-wise unmarshalling of JSON object fields into the `map
[string]*UserData` accumulator (later duplicate keys overwrite earlier
ones, as in a Go map assignment). -/
def decodeUserEntries (acc : Snapshot) : List (String × Json) → Except String Snapshot
  | [] => .ok acc
  | f :: rest =>
      match decodeUserData f.2 with
      | .error e => .error e
      | .ok ud => decodeUserEntries (insertKey acc f.1 ud) rest

/-- Unmarshalling of a JSON value into the `map[string]*UserData` held in
`acc` (Go decodes object entries into the existing map; `null` resets it). -/
def decodeUserMapInto (acc : Snapshot) : Json → Except String Snapshot
  | .null => .ok []
  | .obj fields => decodeUserEntries acc fields
  | _ => .error "json: cannot unmarshal value into type map of UserData"

/-- Field-wise unmarshalling of the top-level persistData object: only the
`user_data` field is populated, unknown fields are skipped. -/
def decodeTopFields (acc : Snapshot) : List (String × Json) → Except String Snapshot
  | [] => .ok acc
  | f :: rest =>
      if f.1 = "user_data" then
        match decodeUserMapInto acc f.2 with
        | .error e => .error e
        | .ok a => decodeTopFields a rest
      else decodeTopFields acc rest

/-- Unmarshalling of a whole document into persistData (the first unmarshal
of LoadFromDisk, storage.go lines 577-581). -/
def decodePersistData : Json → Except String Snapshot
  | .null => .ok []
  | .obj fields => decodeTopFields [] fields
  | _ => .error "json: cannot unmarshal value into type persistData"

/-- Element-wise unmarshalling of a JSON array into strings. -/
def decodeStringArray : List Json → Except String (List String)
  | [] => .ok []
  | j :: rest =>
      match (match j with
             | .null => Except.ok ""
             | .str s => Except.ok s
             | _ => Except.error "json: cannot unmarshal value into type string") with
      | .error e => .error e
      | .ok s =>
          match decodeStringArray rest with
          | .error e => .error e
          | .ok l => .ok (s :: l)

/-- Unmarshalling of a JSON value into a `[]string` slice element-wise. -/
def decodeStringList : Json → Except String (List String)
  | .null => .ok []
  | .arr elems => decodeStringArray elems
  | _ => .error "json: cannot unmarshal value into type list of string"

/-- Unmarshalling of a JSON value into a legacyUserData struct. -/
def decodeLegacyUserData : Json → Except String LegacyUserData
  | .null => .ok { ips := [], lastSeen := 0 }
  | .obj fields =>
      fields.foldlM (fun (acc : LegacyUserData) f =>
        if f.1 = "ips" then
          match decodeStringList f.2 with
          | .ok l => .ok { acc with ips := l }
          | .error e => .error e
        else if f.1 = "last_seen" then
          match f.2 with
          | .null => .ok acc
          | .num n => .ok { acc with lastSeen := n }
          | _ => .error "json: cannot unmarshal value into field last_seen of type int64"
        else .ok acc)
        { ips := [], lastSeen := 0 }
  | _ => .error "json: cannot unmarshal value into type legacyUserData"

/-- Entry-wise unmarshalling of JSON object fields into the legacy user
map accumulator. -/
def decodeLegacyEntries (acc : List (String × LegacyUserData)) :
    List (String × Json) → Except String (List (String × LegacyUserData))
  | [] => .ok acc
  | g :: rest =>
      match decodeLegacyUserData g.2 with
      | .error e => .error e
      | .ok lud => decodeLegacyEntries (insertKey acc g.1 lud) rest

/-- Field-wise unmarshalling of the top-level legacy wrapper object. -/
def decodeLegacyTopFields (acc : List (String × LegacyUserData)) :
    List (String × Json) → Except String (List (String × LegacyUserData))
  | [] => .ok acc
  | f :: rest =>
      if f.1 = "user_data" then
        match (match f.2 with
               | Json.null => Except.ok ([] : List (String × LegacyUserData))
               | Json.obj inner => decodeLegacyEntries acc inner
               | _ => Except.error
                   "json: cannot unmarshal value into type map of legacyUserData") with
        | .error e => .error e
        | .ok a => decodeLegacyTopFields a rest
      else decodeLegacyTopFields acc rest

/-- Unmarshalling of a whole document into the anonymous legacy wrapper
struct used by the migration-detection probe and by
migrateFromLegacyFormat. -/
def decodeLegacyPersistData : Json → Except String (List (String × LegacyUserData))
  | .null => .ok []
  | .obj fields => decodeLegacyTopFields [] fields
  | _ => .error "json: cannot unmarshal value into type legacy persistData"

/-- The migration-detection probe of LoadFromDisk (storage.go lines 583-601):
migration is needed when the decoded new-format map is non-empty, the legacy
parse of the same bytes succeeds, and some user has a non-empty legacy IP
list. -/
def needsMigration (pd : Snapshot) (j : Json) : Bool :=
  if pd.length > 0 then
    match decodeLegacyPersistData j with
    | .ok legacy => legacy.any (fun p => 0 < p.2.ips.length)
    | .error _ => false
  else false

/-- The per-user conversion done by migrateFromLegacyFormat (storage.go lines
646-668): copy the principal-level timestamp onto every IP; the
principal-level field is not set in the new format. `fmtISO` stands for the
`time.Unix(..).Format(..)` rendering. -/
def migrateUser (debug : Bool) (fmtISO : Int → String) (lud : LegacyUserData) :
    UserData :=
  { ips := lud.ips.map (fun ip =>
      { ip := ip, lastSeen := lud.lastSeen,
        lastSeenISO := if debug then fmtISO lud.lastSeen else "" })
    lastSeen := 0 }

/-- migrateFromLegacyFormat (storage.go lines 633-676): reparse the document
as legacy, convert every user, and mark the store dirty. -/
def migrateFromLegacyFormat (s : Store) (j : Json) (fmtISO : Int → String) :
    Except String Store :=
  match decodeLegacyPersistData j with
  | .error e => .error e
  | .ok legacy =>
      .ok { s with
        userData := legacy.map (fun p => (p.1, migrateUser s.debugLogging fmtISO p.2))
        dirty := true }

/-- The reverse-index rebuild of LoadFromDisk (storage.go lines 616-625):
a fresh map, then every (user, ip) pair inserted. -/
def rebuildIndex (snap : Snapshot) : List (String × List String) :=
  snap.foldl (fun idx p => p.2.ips.foldl (fun i d => addUserToIP i d.ip p.1) idx) []

/-- What the persistence file looks like to LoadFromDisk: absent, a stat
failure, a read failure, bytes that are not JSON, or a JSON document. -/
inductive FileState where
  | absent
  | statFailure
  | readFailure
  | malformed
  | content (j : Json)

/-- LoadFromDisk from storage.go (lines 551-630). On a missing file it
returns success leaving the store untouched; otherwise it unmarshals as the
new format (returning any unmarshal error), probes for the legacy shape,
migrates if the probe fires, installs the data, rebuilds the reverse index,
and finally clears the dirty flag (line 627) — note this final clear runs on
the migration path too. -/
def loadFromDisk (s : Store) (file : FileState) (fmtISO : Int → String) :
    Except String Store :=
  match file with
  | .absent => .ok s
  | .statFailure => .error "stat failure"
  | .readFailure => .error "read failure"
  | .malformed => .error "invalid character in JSON payload"
  | .content j =>
      match decodePersistData j with
      | .error e => .error e
      | .ok pd =>
          let afterInstall : Except String Store :=
            if needsMigration pd j then migrateFromLegacyFormat s j fmtISO
            else .ok { s with userData := pd }
          match afterInstall with
          | .error e => .error e
          | .ok s1 =>
              .ok { s1 with ipToUsers := rebuildIndex s1.userData, dirty := false }

/-- Outcome of the fallible steps of one PersistToDisk attempt: which of
`json.MarshalIndent`, `os.WriteFile` (temp file) or `os.Rename` fails, if
any. -/
inductive WriteOutcome where
  | success
  | marshalFailure
  | writeTempFailure
  | renameFailure

/-- Result of a PersistToDisk call: the resulting store, whether the
encode-and-write sequence was attempted at all (as opposed to the
`!dirty && !force` no-op), whether the target file was atomically replaced,
and the returned error, if any. -/
structure PersistResult where
  store : Store
  attempted : Bool
  wrote : Bool
  error : Option String
deriving Repr, DecidableEq

/-- PersistToDisk from storage.go (lines 679-713): skip when clean and not
forced; otherwise marshal, write the temp file, rename it over the target,
and clear the dirty flag only after a fully successful write. -/
def persistToDisk (s : Store) (force : Bool) (out : WriteOutcome) : PersistResult :=
  if !s.dirty && !force then
    { store := s, attempted := false, wrote := false, error := none }
  else
    match out with
    | .marshalFailure =>
        { store := s, attempted := true, wrote := false, error := some "marshal failure" }
    | .writeTempFailure =>
        { store := s, attempted := true, wrote := false, error := some "write failure" }
    | .renameFailure =>
        { store := s, attempted := true, wrote := false, error := some "rename failure" }
    | .success =>
        { store := { s with dirty := false }, attempted := true, wrote := true,
          error := none }

/-- A freshly constructed and configured store: getStorage allocates the two
empty maps, Configure installs the parameters and initializes `dirty :=
false`. -/
def initialStore (persistPath : String) (maxIPs ttl : Nat) (debug : Bool) : Store :=
  { userData := []
    ipToUsers := []
    maxIPsPerUser := maxIPs
    userDataTTL := ttl
    persistPath := persistPath
    dirty := false
    debugLogging := debug }

/-- One Record call (AddUserIP) with the clock readings it observes. -/
structure RecordCall where
  email : String
  ip : String
  now : Int
  nowISO : String

/-- A sequence of Record calls applied to a store. -/
def runRecords (s : Store) (calls : List RecordCall) : Store :=
  calls.foldl (fun acc c => (addUserIP acc c.email c.ip c.now c.nowISO).1) s

/-- The successful installation step of LoadFromDisk for a decoded new-format
snapshot (storage.go lines 611-628): install the user map, rebuild the
reverse index, clear the dirty flag. -/
def loadSnapshot (s : Store) (snap : Snapshot) : Store :=
  { s with userData := snap, ipToUsers := rebuildIndex snap, dirty := false }

/-- Principal `u` currently lists `ip` in its history. -/
def listsIP (s : Store) (u ip : String) : Prop :=
  ip ∈ (history s u).map IPData.ip

/-- Data-model invariants of a snapshot with respect to the bound
`maxIPs`: map keys are distinct, and every history is bounded and free of
duplicate IPs. -/
def SnapWF (maxIPs : Nat) (snap : Snapshot) : Prop :=
  (snap.map Prod.fst).Nodup ∧
  ∀ p ∈ snap, p.2.ips.length ≤ maxIPs ∧ (p.2.ips.map IPData.ip).Nodup

/-- States reachable from a freshly configured store (Provision rejects an
empty persist path and a zero `max_ips_per_user`) by Record calls, expiry
sweeps, and successful loads of well-formed snapshots. -/
inductive Reachable : Store → Prop where
  | init (path : String) (maxIPs ttl : Nat) (debug : Bool)
      (hmax : 0 < maxIPs) (hpath : path ≠ "") :
      Reachable (initialStore path maxIPs ttl debug)
  | record (s : Store) (email ip : String) (now : Int) (nowISO : String) :
      Reachable s → Reachable (addUserIP s email ip now nowISO).1
  | sweep (s : Store) (now : Int) :
      Reachable s → Reachable (cleanupExpiredUsers s now)
  | load (s : Store) (snap : Snapshot) (hsnap : SnapWF s.maxIPsPerUser snap) :
      Reachable s → Reachable (loadSnapshot s snap)

/-! Decidability of `Except` equality, used to evaluate decoder results on
concrete documents. -/

def exceptDecEq {ε α : Type} [DecidableEq ε] [DecidableEq α] :
    (a b : Except ε α) → Decidable (a = b)
  | .ok a, .ok b =>
      if h : a = b then .isTrue (by rw [h]) else .isFalse (by simp [h])
  | .ok _, .error _ => .isFalse (by simp)
  | .error _, .ok _ => .isFalse (by simp)
  | .error e, .error f =>
      if h : e = f then .isTrue (by rw [h]) else .isFalse (by simp [h])

instance {ε α : Type} [DecidableEq ε] [DecidableEq α] : DecidableEq (Except ε α) :=
  exceptDecEq

/-! Association-list lemmas. -/

theorem lookup_insertKey {α : Type} (m : List (String × α)) (k x : String) (v : α) :
    lookupKey (insertKey m k v) x = if k = x then some v else lookupKey m x := by
  induction m with
  | nil =>
      by_cases hx : k = x <;> simp [insertKey, lookupKey, hx]
  | cons p rest ih =>
      obtain ⟨k', v'⟩ := p
      by_cases h : k' = k
      · subst h
        by_cases hx : k' = x <;> simp [insertKey, lookupKey, hx]
      · by_cases hx : k' = x
        · subst hx
          have hkx : ¬ k = k' := fun hc => h hc.symm
          simp [insertKey, lookupKey, h, hkx]
        · simp [insertKey, lookupKey, h, hx, ih]

theorem lookup_eraseKey {α : Type} (m : List (String × α)) (k x : String) :
    lookupKey (eraseKey m k) x = if k = x then none else lookupKey m x := by
  induction m with
  | nil =>
      by_cases hx : k = x <;> simp [eraseKey, lookupKey, hx]
  | cons p rest ih =>
      obtain ⟨k', v'⟩ := p
      by_cases h : k' = k
      · subst h
        by_cases hx : k' = x
        · subst hx
          simp [eraseKey, lookupKey, ih]
        · simp [eraseKey, lookupKey, hx, ih]
      · by_cases hx : k' = x
        · subst hx
          have hkx : ¬ k = k' := fun hc => h hc.symm
          simp [eraseKey, lookupKey, h, hkx]
        · simp [eraseKey, lookupKey, h, hx, ih]

theorem keys_eraseKey_sublist {α : Type} (m : List (String × α)) (k : String) :
    ((eraseKey m k).map Prod.fst).Sublist (m.map Prod.fst) := by
  induction m with
  | nil => simp [eraseKey]
  | cons p rest ih =>
      obtain ⟨k', v'⟩ := p
      by_cases h : k' = k
      · simp only [eraseKey, if_pos h, List.map_cons]
        exact ih.cons _
      · simp only [eraseKey, if_neg h, List.map_cons]
        exact ih.cons₂ _

theorem nodupKeys_eraseKey {α : Type} {m : List (String × α)} (k : String)
    (h : (m.map Prod.fst).Nodup) : ((eraseKey m k).map Prod.fst).Nodup :=
  (keys_eraseKey_sublist m k).nodup h

theorem keys_insertKey_mem {α : Type} {m : List (String × α)} {k x : String} {v : α} :
    x ∈ (insertKey m k v).map Prod.fst → x ∈ m.map Prod.fst ∨ x = k := by
  induction m with
  | nil =>
      intro hx
      simp [insertKey] at hx
      exact Or.inr hx
  | cons p rest ih =>
      obtain ⟨k', v'⟩ := p
      intro hx
      by_cases h : k' = k
      · subst h
        simp [insertKey] at hx ⊢
        tauto
      · simp only [insertKey, if_neg h, List.map_cons, List.mem_cons] at hx
        rcases hx with hx | hx
        · exact Or.inl (List.mem_cons.mpr (Or.inl hx))
        · rcases ih hx with h1 | h1
          · exact Or.inl (List.mem_cons_of_mem _ h1)
          · exact Or.inr h1

theorem nodupKeys_insertKey {α : Type} {m : List (String × α)} (k : String) (v : α)
    (h : (m.map Prod.fst).Nodup) : ((insertKey m k v).map Prod.fst).Nodup := by
  induction m with
  | nil => simp [insertKey]
  | cons p rest ih =>
      obtain ⟨k', v'⟩ := p
      simp only [List.map_cons, List.nodup_cons] at h
      by_cases hk : k' = k
      · subst hk
        simpa [insertKey] using h
      · simp only [insertKey, if_neg hk, List.map_cons, List.nodup_cons]
        refine ⟨?_, ih h.2⟩
        intro hmem
        rcases keys_insertKey_mem hmem with h1 | h1
        · exact h.1 h1
        · exact hk h1

theorem lookup_mem {α : Type} {m : List (String × α)} {k : String} {v : α}
    (h : lookupKey m k = some v) : (k, v) ∈ m := by
  induction m with
  | nil => simp [lookupKey] at h
  | cons p rest ih =>
      obtain ⟨k', v'⟩ := p
      by_cases hk : k' = k
      · subst hk
        simp [lookupKey] at h
        subst h
        exact List.mem_cons_self _ _
      · simp only [lookupKey, if_neg hk] at h
        exact List.mem_cons_of_mem _ (ih h)

theorem mem_lookup {α : Type} {m : List (String × α)} {k : String} {v : α}
    (hnd : (m.map Prod.fst).Nodup) (h : (k, v) ∈ m) : lookupKey m k = some v := by
  induction m with
  | nil => simp at h
  | cons p rest ih =>
      obtain ⟨k', v'⟩ := p
      simp only [List.map_cons, List.nodup_cons] at hnd
      rcases List.mem_cons.mp h with h1 | h1
      · have e1 : k = k' := congrArg Prod.fst h1
        have e2 : v = v' := congrArg Prod.snd h1
        subst e1; subst e2
        simp [lookupKey]
      · have hk : k' ≠ k := by
          intro hc
          subst hc
          exact hnd.1 (List.mem_map.mpr ⟨(k', v), h1, rfl⟩)
        simp only [lookupKey, if_neg hk]
        exact ih hnd.2 h1

/-! extractIP lemmas. -/

theorem extractIP_ip {l : List IPData} {ip : String} {e : IPData} {rest : List IPData}
    (h : extractIP l ip = some (e, rest)) : e.ip = ip := by
  induction l generalizing rest with
  | nil => simp [extractIP] at h
  | cons d tl ih =>
      by_cases hd : d.ip = ip
      · simp only [extractIP, if_pos hd] at h
        injection h with h
        injection h with h1 h2
        subst h1
        exact hd
      · simp only [extractIP, if_neg hd] at h
        cases htl : extractIP tl ip with
        | none => rw [htl] at h; simp at h
        | some pr =>
            obtain ⟨e', rest'⟩ := pr
            rw [htl] at h
            simp only [Option.some.injEq] at h
            injection h with h1 h2
            subst h1
            exact ih htl

theorem extractIP_perm {l : List IPData} {ip : String} {e : IPData} {rest : List IPData}
    (h : extractIP l ip = some (e, rest)) : l.Perm (e :: rest) := by
  induction l generalizing rest with
  | nil => simp [extractIP] at h
  | cons d tl ih =>
      by_cases hd : d.ip = ip
      · simp only [extractIP, if_pos hd] at h
        injection h with h
        injection h with h1 h2
        subst h1; subst h2
        exact List.Perm.refl _
      · simp only [extractIP, if_neg hd] at h
        cases htl : extractIP tl ip with
        | none => rw [htl] at h; simp at h
        | some pr =>
            obtain ⟨e', rest'⟩ := pr
            rw [htl] at h
            simp only [Option.some.injEq] at h
            injection h with h1 h2
            subst h1; subst h2
            exact ((ih htl).cons d).trans (List.Perm.swap _ _ rest')

theorem extractIP_none {l : List IPData} {ip : String}
    (h : extractIP l ip = none) : ip ∉ l.map IPData.ip := by
  induction l with
  | nil => simp
  | cons d tl ih =>
      by_cases hd : d.ip = ip
      · simp [extractIP, hd] at h
      · simp only [extractIP, if_neg hd] at h
        cases htl : extractIP tl ip with
        | none =>
            simp only [List.map_cons, List.mem_cons]
            rintro (h1 | h1)
            · exact hd h1.symm
            · exact ih htl h1
        | some pr => rw [htl] at h; simp at h

/-! mostRecentSeen lemmas. -/

theorem foldl_max_le {l : List IPData} {a b : Int} (hab : a ≤ b) :
    a ≤ l.foldl (fun m d => if d.lastSeen > m then d.lastSeen else m) b := by
  induction l generalizing b with
  | nil => exact hab
  | cons d tl ih =>
      simp only [List.foldl_cons]
      by_cases h : d.lastSeen > b
      · rw [if_pos h]
        exact ih (le_of_lt (lt_of_le_of_lt hab h))
      · rw [if_neg h]
        exact ih hab

theorem mostRecentSeen_nonneg (l : List IPData) : 0 ≤ mostRecentSeen l :=
  foldl_max_le le_rfl

theorem mostRecentSeen_cons_ge (d : IPData) (l : List IPData) :
    d.lastSeen ≤ mostRecentSeen (d :: l) := by
  unfold mostRecentSeen
  simp only [List.foldl_cons]
  by_cases h : d.lastSeen > 0
  · simp only [if_pos h]
    exact foldl_max_le le_rfl
  · simp only [if_neg h]
    exact foldl_max_le (le_of_not_lt h)

/-! Reverse-index correctness. `BucketCorrect idx R` states that the index
`idx` has a non-empty bucket holding exactly the principals related by `R`
for every IP with at least one related principal, and no bucket at all for
the others. -/

def BucketCorrect (idx : List (String × List String))
    (R : String → String → Prop) : Prop :=
  ∀ ip,
    (lookupKey idx ip = none → ∀ u, ¬ R u ip) ∧
    (∀ users, lookupKey idx ip = some users →
      users ≠ [] ∧ ∀ u, (u ∈ users ↔ R u ip))

theorem bucketCorrect_congr {idx : List (String × List String)}
    {R R' : String → String → Prop} (hR : ∀ u ip, R u ip ↔ R' u ip)
    (h : BucketCorrect idx R) : BucketCorrect idx R' := by
  intro ip
  refine ⟨fun hn u => ?_, fun users hs => ?_⟩
  · exact fun hr => (h ip).1 hn u ((hR u ip).mpr hr)
  · obtain ⟨hne, hmem⟩ := (h ip).2 users hs
    exact ⟨hne, fun u => (hmem u).trans (hR u ip)⟩

theorem bucketCorrect_empty : BucketCorrect [] (fun _ _ => False) := by
  intro ip
  refine ⟨fun _ _ => id, fun users hs => ?_⟩
  simp [lookupKey] at hs

theorem bucketCorrect_addUserToIP {idx : List (String × List String)}
    {R : String → String → Prop} (ip u : String) (h : BucketCorrect idx R) :
    BucketCorrect (addUserToIP idx ip u)
      (fun v x => R v x ∨ (v = u ∧ x = ip)) := by
  intro x
  by_cases hx : x = ip
  · subst hx
    cases hold : lookupKey idx x with
    | none =>
        refine ⟨fun hn => ?_, fun users hs => ?_⟩
        · rw [addUserToIP, hold, lookup_insertKey, if_pos rfl] at hn
          exact absurd hn (by simp)
        · rw [addUserToIP, hold, lookup_insertKey, if_pos rfl] at hs
          injection hs with hs
          subst hs
          refine ⟨by simp, fun v => ?_⟩
          have hnone := (h x).1 hold
          simp only [List.mem_singleton]
          constructor
          · intro hv
            exact Or.inr ⟨hv, trivial⟩
          · rintro (hr | ⟨hv, -⟩)
            · exact absurd hr (hnone v)
            · exact hv
    | some users =>
        obtain ⟨hne, hmem⟩ := (h x).2 users hold
        refine ⟨fun hn => ?_, fun users' hs => ?_⟩
        · rw [addUserToIP, hold, lookup_insertKey, if_pos rfl] at hn
          exact absurd hn (by simp)
        · rw [addUserToIP, hold, lookup_insertKey, if_pos rfl] at hs
          injection hs with hs
          subst hs
          by_cases hu : u ∈ users
          · rw [if_pos hu]
            refine ⟨hne, fun v => ?_⟩
            constructor
            · intro hv
              exact Or.inl ((hmem v).mp hv)
            · rintro (hr | ⟨rfl, -⟩)
              · exact (hmem v).mpr hr
              · exact hu
          · rw [if_neg hu]
            refine ⟨by simp, fun v => ?_⟩
            rw [List.mem_append, List.mem_singleton]
            constructor
            · rintro (hv | rfl)
              · exact Or.inl ((hmem v).mp hv)
              · exact Or.inr ⟨rfl, by trivial⟩
            · rintro (hr | ⟨rfl, -⟩)
              · exact Or.inl ((hmem v).mpr hr)
              · exact Or.inr rfl
  · have hunch : lookupKey (addUserToIP idx ip u) x = lookupKey idx x := by
      have hip : ¬ ip = x := fun hc => hx hc.symm
      unfold addUserToIP
      cases hold : lookupKey idx ip <;>
        simp [lookup_insertKey, hip]
    refine ⟨fun hn v => ?_, fun users hs => ?_⟩
    · rw [hunch] at hn
      rintro (hr | ⟨-, hc⟩)
      · exact (h x).1 hn v hr
      · exact hx hc
    · rw [hunch] at hs
      obtain ⟨hne, hmem⟩ := (h x).2 users hs
      refine ⟨hne, fun v => ?_⟩
      constructor
      · intro hv
        exact Or.inl ((hmem v).mp hv)
      · rintro (hr | ⟨-, hc⟩)
        · exact (hmem v).mpr hr
        · exact absurd hc hx

theorem bucketCorrect_removeUserFromIP {idx : List (String × List String)}
    {R : String → String → Prop} (ip u : String) (h : BucketCorrect idx R) :
    BucketCorrect (removeUserFromIP idx ip u)
      (fun v x => R v x ∧ ¬ (v = u ∧ x = ip)) := by
  intro x
  by_cases hx : x = ip
  · subst hx
    cases hold : lookupKey idx x with
    | none =>
        have hunch : lookupKey (removeUserFromIP idx x u) x = none := by
          rw [removeUserFromIP, hold]
          exact hold
        refine ⟨fun _ v hr => (h x).1 hold v hr.1, fun users hs => ?_⟩
        rw [hunch] at hs
        exact absurd hs (by simp)
    | some users =>
        obtain ⟨hne, hmem⟩ := (h x).2 users hold
        by_cases hemp : users.filter (fun v => v ≠ u) = []
        · have hunch : lookupKey (removeUserFromIP idx x u) x = none := by
            rw [removeUserFromIP, hold]
            dsimp only
            rw [if_pos hemp, lookup_eraseKey, if_pos rfl]
          refine ⟨fun _ v hr => ?_, fun users' hs => ?_⟩
          · have hv : v ∈ users := (hmem v).mpr hr.1
            have hvu : v ≠ u := fun hc => hr.2 ⟨hc, rfl⟩
            have hvf : v ∈ users.filter (fun w => w ≠ u) :=
              List.mem_filter.mpr ⟨hv, decide_eq_true hvu⟩
            rw [hemp] at hvf
            simp at hvf
          · rw [hunch] at hs
            exact absurd hs (by simp)
        · have hunch : lookupKey (removeUserFromIP idx x u) x =
              some (users.filter (fun v => v ≠ u)) := by
            rw [removeUserFromIP, hold]
            dsimp only
            rw [if_neg hemp, lookup_insertKey, if_pos rfl]
          refine ⟨fun hn => ?_, fun users' hs => ?_⟩
          · rw [hunch] at hn
            exact absurd hn (by simp)
          · rw [hunch] at hs
            injection hs with hs
            subst hs
            refine ⟨hemp, fun v => ?_⟩
            rw [List.mem_filter]
            constructor
            · rintro ⟨hv, hvu⟩
              simp only [ne_eq, decide_not, Bool.not_eq_true', decide_eq_false_iff_not] at hvu
              exact ⟨(hmem v).mp hv, fun hc => hvu hc.1⟩
            · rintro ⟨hr, hno⟩
              refine ⟨(hmem v).mpr hr, ?_⟩
              simp only [ne_eq, decide_not, Bool.not_eq_true', decide_eq_false_iff_not]
              exact fun hc => hno ⟨hc, rfl⟩
  · have hunch : lookupKey (removeUserFromIP idx ip u) x = lookupKey idx x := by
      have hip : ¬ ip = x := fun hc => hx hc.symm
      cases hold : lookupKey idx ip with
      | none => rw [removeUserFromIP, hold]
      | some users =>
          by_cases hemp : users.filter (fun v => v ≠ u) = []
          · rw [removeUserFromIP, hold]
            dsimp only
            rw [if_pos hemp, lookup_eraseKey, if_neg hip]
          · rw [removeUserFromIP, hold]
            dsimp only
            rw [if_neg hemp, lookup_insertKey, if_neg hip]
    refine ⟨fun hn v hr => ?_, fun users hs => ?_⟩
    · rw [hunch] at hn
      exact (h x).1 hn v hr.1
    · rw [hunch] at hs
      obtain ⟨hne, hmem⟩ := (h x).2 users hs
      refine ⟨hne, fun v => ?_⟩
      constructor
      · intro hv
        exact ⟨(hmem v).mp hv, fun hc => hx hc.2⟩
      · rintro ⟨hr, -⟩
        exact (hmem v).mpr hr

theorem bucketCorrect_removeAllIPs (u : String) (ips : List IPData) :
    ∀ (idx : List (String × List String)) (R : String → String → Prop),
    BucketCorrect idx R →
    BucketCorrect (removeAllIPs idx u ips)
      (fun v x => R v x ∧ ¬ (v = u ∧ x ∈ ips.map IPData.ip)) := by
  induction ips with
  | nil =>
      intro idx R h
      refine bucketCorrect_congr (fun v x => ?_) h
      simp
  | cons d tl ih =>
      intro idx R h
      have h1 := bucketCorrect_removeUserFromIP (R := R) d.ip u h
      have h2 := ih _ _ h1
      refine bucketCorrect_congr (fun v x => ?_) h2
      constructor
      · rintro ⟨⟨hr, hnd⟩, hntl⟩
        refine ⟨hr, ?_⟩
        rintro ⟨rfl, hmem⟩
        simp only [List.map_cons, List.mem_cons] at hmem
        rcases hmem with hmem | hmem
        · exact hnd ⟨rfl, hmem⟩
        · exact hntl ⟨rfl, hmem⟩
      · rintro ⟨hr, hno⟩
        refine ⟨⟨hr, ?_⟩, ?_⟩
        · rintro ⟨rfl, hd⟩
          exact hno ⟨rfl, by simp [hd]⟩
        · rintro ⟨rfl, hmem⟩
          exact hno ⟨rfl, by simp [hmem]⟩

theorem bucketCorrect_addAllIPs (u : String) (ips : List IPData) :
    ∀ (idx : List (String × List String)) (R : String → String → Prop),
    BucketCorrect idx R →
    BucketCorrect (ips.foldl (fun i d => addUserToIP i d.ip u) idx)
      (fun v x => R v x ∨ (v = u ∧ x ∈ ips.map IPData.ip)) := by
  induction ips with
  | nil =>
      intro idx R h
      refine bucketCorrect_congr (fun v x => ?_) h
      simp
  | cons d tl ih =>
      intro idx R h
      have h1 := bucketCorrect_addUserToIP (R := R) d.ip u h
      have h2 := ih _ _ h1
      refine bucketCorrect_congr (fun v x => ?_) h2
      simp only [List.map_cons, List.mem_cons]
      tauto

theorem bucketCorrect_rebuild_aux (snap : Snapshot) :
    ∀ (idx : List (String × List String)) (R : String → String → Prop),
    BucketCorrect idx R →
    BucketCorrect
      (snap.foldl (fun i p => p.2.ips.foldl (fun i2 d => addUserToIP i2 d.ip p.1) i) idx)
      (fun v x => R v x ∨ ∃ ud, (v, ud) ∈ snap ∧ x ∈ ud.ips.map IPData.ip) := by
  induction snap with
  | nil =>
      intro idx R h
      refine bucketCorrect_congr (fun v x => ?_) h
      simp
  | cons p tl ih =>
      intro idx R h
      have h1 := bucketCorrect_addAllIPs p.1 p.2.ips idx R h
      have h2 := ih _ _ h1
      refine bucketCorrect_congr (fun v x => ?_) h2
      constructor
      · rintro ((hr | ⟨rfl, hmem⟩) | ⟨ud, hud, hmem⟩)
        · exact Or.inl hr
        · exact Or.inr ⟨p.2, by simp, hmem⟩
        · exact Or.inr ⟨ud, List.mem_cons_of_mem _ hud, hmem⟩
      · rintro (hr | ⟨ud, hud, hmem⟩)
        · exact Or.inl (Or.inl hr)
        · rcases List.mem_cons.mp hud with hud | hud
          · have e1 : v = p.1 := congrArg Prod.fst hud
            have e2 : ud = p.2 := congrArg Prod.snd hud
            subst e1; subst e2
            exact Or.inl (Or.inr ⟨rfl, hmem⟩)
          · exact Or.inr ⟨ud, hud, hmem⟩

theorem bucketCorrect_rebuild (snap : Snapshot) :
    BucketCorrect (rebuildIndex snap)
      (fun v x => ∃ ud, (v, ud) ∈ snap ∧ x ∈ ud.ips.map IPData.ip) := by
  have h := bucketCorrect_rebuild_aux snap [] (fun _ _ => False) bucketCorrect_empty
  refine bucketCorrect_congr (fun v x => ?_) h
  simp [rebuildIndex]

/-! The combined store invariant and its preservation by every mutating
operation. -/

/-- The in-memory invariant of the tracking store: distinct principal keys,
bounded duplicate-free histories, a reverse index that matches the histories
exactly (with no empty buckets), and a positive eviction bound (enforced by
Provision). -/
structure StoreWF (s : Store) : Prop where
  keysNodup : (s.userData.map Prod.fst).Nodup
  histBound : ∀ u, (history s u).length ≤ s.maxIPsPerUser
  histNodup : ∀ u, ((history s u).map IPData.ip).Nodup
  buckets : BucketCorrect s.ipToUsers (listsIP s)
  maxPos : 0 < s.maxIPsPerUser

theorem wf_initialStore (path : String) (maxIPs ttl : Nat) (debug : Bool)
    (hmax : 0 < maxIPs) : StoreWF (initialStore path maxIPs ttl debug) := by
  refine ⟨by simp [initialStore], ?_, ?_, ?_, hmax⟩
  · intro u
    simp [history, initialStore, lookupKey]
  · intro u
    simp [history, initialStore, lookupKey]
  · intro ip
    refine ⟨fun _ u hr => ?_, fun users hs => ?_⟩
    · simp [listsIP, history, initialStore, lookupKey] at hr
    · simp [initialStore, lookupKey] at hs

theorem history_update2 (s : Store) (email : String) (ud' : UserData)
    (idx : List (String × List String)) (u : String) :
    history { s with userData := insertKey s.userData email ud',
                     ipToUsers := idx, dirty := true } u =
      if email = u then ud'.ips else history s u := by
  unfold history
  dsimp only
  rw [lookup_insertKey]
  by_cases h : email = u
  · simp only [if_pos h]
  · simp only [if_neg h]

theorem history_update1 (s : Store) (email : String) (ud' : UserData) (u : String) :
    history { s with userData := insertKey s.userData email ud', dirty := true } u =
      if email = u then ud'.ips else history s u := by
  unfold history
  dsimp only
  rw [lookup_insertKey]
  by_cases h : email = u
  · simp only [if_pos h]
  · simp only [if_neg h]

theorem addNewIPEntry_eq_noevict (s : Store) (email : String) (ud : UserData)
    (ip : String) (now : Int) (iso : String)
    (h : ¬ s.maxIPsPerUser < ud.ips.length + 1) :
    addNewIPEntry s email ud ip now iso =
      ({ s with
          userData := insertKey s.userData email
            { ud with ips := newIPEntry ip now iso :: ud.ips }
          ipToUsers := addUserToIP s.ipToUsers ip email
          dirty := true }, true) := by
  unfold addNewIPEntry
  dsimp only
  simp only [List.length_cons, if_neg h]

theorem addNewIPEntry_eq_evict (s : Store) (email : String) (ud : UserData)
    (ip : String) (now : Int) (iso : String)
    (h : s.maxIPsPerUser < ud.ips.length + 1) :
    addNewIPEntry s email ud ip now iso =
      ({ s with
          userData := insertKey s.userData email
            { ud with ips := (newIPEntry ip now iso :: ud.ips).take s.maxIPsPerUser }
          ipToUsers := addUserToIP
            (removeUserFromIP s.ipToUsers
              ((newIPEntry ip now iso :: ud.ips).getD s.maxIPsPerUser zeroIPEntry).ip
              email)
            ip email
          dirty := true }, true) := by
  unfold addNewIPEntry
  dsimp only
  simp only [List.length_cons, if_pos h]

theorem wf_addNewIPEntry (s : Store) (email : String) (ud : UserData)
    (ip : String) (now : Int) (iso : String) (hwf : StoreWF s)
    (hud : history s email = ud.ips)
    (hnotin : ip ∉ ud.ips.map IPData.ip) :
    StoreWF (addNewIPEntry s email ud ip now iso).1 := by
  have hLb : ud.ips.length ≤ s.maxIPsPerUser := hud ▸ hwf.histBound email
  have hndu : (ud.ips.map IPData.ip).Nodup := hud ▸ hwf.histNodup email
  by_cases hc : s.maxIPsPerUser < ud.ips.length + 1
  · -- eviction: the old history is full (length = maxIPsPerUser ≥ 1)
    have hL : ud.ips.length = s.maxIPsPerUser := le_antisymm hLb (by omega)
    have hne : ud.ips ≠ [] := by
      intro hcon
      have hmp := hwf.maxPos
      rw [hcon] at hL
      simp at hL
      omega
    rcases List.eq_nil_or_concat' ud.ips with hnil | ⟨init, lastE, hsplit⟩
    · exact absurd hnil hne
    rw [addNewIPEntry_eq_evict s email ud ip now iso hc]
    have hLen : init.length + 1 = s.maxIPsPerUser := by
      rw [hsplit] at hL
      simpa using hL
    have hgetD :
        (newIPEntry ip now iso :: ud.ips).getD s.maxIPsPerUser zeroIPEntry = lastE := by
      rw [hsplit, ← hLen]
      rw [List.getD_cons_succ]
      simp [List.getD_eq_getElem?_getD]
    have htake :
        (newIPEntry ip now iso :: ud.ips).take s.maxIPsPerUser =
          newIPEntry ip now iso :: init := by
      rw [hsplit, ← hLen, List.take_succ_cons, List.take_left]
    have hlastmem : lastE.ip ∈ ud.ips.map IPData.ip := by
      rw [hsplit]
      simp
    have happ : (ud.ips.map IPData.ip) = init.map IPData.ip ++ [lastE.ip] := by
      rw [hsplit]
      simp
    have hndapp : (init.map IPData.ip ++ [lastE.ip]).Nodup := happ ▸ hndu
    have hlastnotinit : lastE.ip ∉ init.map IPData.ip := by
      intro hmem
      rcases List.nodup_append.mp hndapp with ⟨-, -, hdis⟩
      exact hdis hmem (by simp)
    have hinitnd : (init.map IPData.ip).Nodup :=
      (List.nodup_append.mp hndapp).1
    have hipnotinit : ip ∉ init.map IPData.ip := by
      intro hmem
      exact hnotin (happ ▸ List.mem_append_left _ hmem)
    rw [hgetD, htake]
    refine ⟨?_, ?_, ?_, ?_, hwf.maxPos⟩
    · exact nodupKeys_insertKey _ _ hwf.keysNodup
    · intro u
      rw [history_update2]
      by_cases h : email = u
      · rw [if_pos h]
        simp only [List.length_cons]
        omega
      · rw [if_neg h]
        exact hwf.histBound u
    · intro u
      rw [history_update2]
      by_cases h : email = u
      · rw [if_pos h]
        simp only [List.map_cons, List.nodup_cons]
        exact ⟨hipnotinit, hinitnd⟩
      · rw [if_neg h]
        exact hwf.histNodup u
    · have hb1 := bucketCorrect_removeUserFromIP (R := listsIP s) lastE.ip email hwf.buckets
      have hb2 := bucketCorrect_addUserToIP
        (R := fun v x => listsIP s v x ∧ ¬ (v = email ∧ x = lastE.ip)) ip email hb1
      refine bucketCorrect_congr (fun v x => ?_) hb2
      unfold listsIP
      rw [history_update2]
      by_cases h : email = v
      · subst h
        rw [if_pos rfl]
        have hls : (x ∈ (history s email).map IPData.ip) ↔
            (x ∈ init.map IPData.ip ∨ x = lastE.ip) := by
          rw [hud, happ]
          simp
        have hnl : x ∈ init.map IPData.ip → ¬ x = lastE.ip :=
          fun hm he => hlastnotinit (he ▸ hm)
        simp only [List.map_cons, List.mem_cons, hls, newIPEntry]
        tauto
      · rw [if_neg h]
        have hv : ¬ v = email := fun hc => h hc.symm
        constructor
        · rintro (⟨hmem, -⟩ | ⟨hc, -⟩)
          · exact hmem
          · exact absurd hc hv
        · intro hmem
          exact Or.inl ⟨hmem, fun hc => hv hc.1⟩
  · -- no eviction: the new history still fits the bound
    have hfit : ud.ips.length + 1 ≤ s.maxIPsPerUser := by omega
    rw [addNewIPEntry_eq_noevict s email ud ip now iso hc]
    refine ⟨?_, ?_, ?_, ?_, hwf.maxPos⟩
    · exact nodupKeys_insertKey _ _ hwf.keysNodup
    · intro u
      rw [history_update2]
      by_cases h : email = u
      · rw [if_pos h]
        simp only [List.length_cons]
        omega
      · rw [if_neg h]
        exact hwf.histBound u
    · intro u
      rw [history_update2]
      by_cases h : email = u
      · rw [if_pos h]
        simp only [List.map_cons, List.nodup_cons]
        exact ⟨hnotin, hndu⟩
      · rw [if_neg h]
        exact hwf.histNodup u
    · have hb2 := bucketCorrect_addUserToIP (R := listsIP s) ip email hwf.buckets
      refine bucketCorrect_congr (fun v x => ?_) hb2
      unfold listsIP
      rw [history_update2]
      by_cases h : email = v
      · subst h
        rw [if_pos rfl]
        have hls : (x ∈ (history s email).map IPData.ip) ↔ x ∈ ud.ips.map IPData.ip := by
          rw [hud]
        simp only [List.map_cons, List.mem_cons, hls, newIPEntry]
        tauto
      · rw [if_neg h]
        have hv : ¬ v = email := fun hc => h hc.symm
        constructor
        · rintro (hmem | ⟨hc, -⟩)
          · exact hmem
          · exact absurd hc hv
        · intro hmem
          exact Or.inl hmem

theorem wf_found (s : Store) (email ip : String) (now : Int) (nowISO : String)
    (ud : UserData) (e : IPData) (rest : List IPData) (hwf : StoreWF s)
    (hlk : lookupKey s.userData email = some ud)
    (hex : extractIP ud.ips ip = some (e, rest)) :
    StoreWF { s with
      userData := insertKey s.userData email
        { ud with ips := refreshEntry e now nowISO s.debugLogging :: rest }
      dirty := true } := by
  have hud : history s email = ud.ips := by
    unfold history
    rw [hlk]
  have hperm : ud.ips.Perm (e :: rest) := extractIP_perm hex
  have hpermmap : (ud.ips.map IPData.ip).Perm (e.ip :: rest.map IPData.ip) := by
    simpa using hperm.map IPData.ip
  have href : (refreshEntry e now nowISO s.debugLogging).ip = e.ip := rfl
  refine ⟨nodupKeys_insertKey _ _ hwf.keysNodup, ?_, ?_, ?_, hwf.maxPos⟩
  · intro u
    rw [history_update1]
    by_cases h : email = u
    · rw [if_pos h]
      have hlen : (e :: rest).length = ud.ips.length := (hperm.length_eq).symm
      have hb := hud ▸ hwf.histBound email
      simp only [List.length_cons] at hlen ⊢
      omega
    · rw [if_neg h]
      exact hwf.histBound u
  · intro u
    rw [history_update1]
    by_cases h : email = u
    · rw [if_pos h]
      have hnd : (ud.ips.map IPData.ip).Nodup := hud ▸ hwf.histNodup email
      have := hpermmap.nodup_iff.mp hnd
      simpa [refreshEntry] using this
    · rw [if_neg h]
      exact hwf.histNodup u
  · refine bucketCorrect_congr (fun v x => ?_) hwf.buckets
    unfold listsIP
    rw [history_update1]
    by_cases h : email = v
    · subst h
      rw [if_pos rfl]
      rw [hud]
      constructor
      · intro hmem
        have : x ∈ (e.ip :: rest.map IPData.ip) := hpermmap.mem_iff.mp hmem
        simpa [refreshEntry] using this
      · intro hmem
        apply hpermmap.mem_iff.mpr
        simpa [refreshEntry] using hmem
    · rw [if_neg h]

theorem wf_addUserIPCore (s : Store) (email ip : String) (now : Int)
    (nowISO : String) (hwf : StoreWF s) :
    StoreWF (addUserIPCore s email ip now nowISO).1 := by
  unfold addUserIPCore
  cases hlk : lookupKey s.userData email with
  | none =>
      dsimp only
      apply wf_addNewIPEntry s email _ ip now _ hwf
      · unfold history
        rw [hlk]
      · simp
  | some ud =>
      dsimp only
      cases hex : extractIP ud.ips ip with
      | none =>
          dsimp only
          apply wf_addNewIPEntry s email ud ip now _ hwf
          · unfold history
            rw [hlk]
          · exact extractIP_none hex
      | some pr =>
          obtain ⟨e, rest⟩ := pr
          dsimp only
          exact wf_found s email ip now nowISO ud e rest hwf hlk hex

theorem history_expire (acc : Store) (email : String)
    (i2 : List (String × List String)) (u : String) :
    history { acc with ipToUsers := i2, userData := eraseKey acc.userData email,
                       dirty := true } u =
      if email = u then [] else history acc u := by
  unfold history
  dsimp only
  rw [lookup_eraseKey]
  by_cases h : email = u
  · simp only [if_pos h]
  · simp only [if_neg h]

theorem wf_expireUser (acc : Store) (email : String) (ud : UserData) (E : Int)
    (hwf : StoreWF acc) (hlk : lookupKey acc.userData email = some ud) :
    StoreWF (expireUser acc email ud E) := by
  unfold expireUser
  by_cases hcond : mostRecentSeen ud.ips < E
  · rw [if_pos hcond]
    have hud : history acc email = ud.ips := by
      unfold history
      rw [hlk]
    refine ⟨nodupKeys_eraseKey _ hwf.keysNodup, ?_, ?_, ?_, hwf.maxPos⟩
    · intro u
      rw [history_expire]
      by_cases h : email = u
      · rw [if_pos h]
        simp
      · rw [if_neg h]
        exact hwf.histBound u
    · intro u
      rw [history_expire]
      by_cases h : email = u
      · rw [if_pos h]
        simp
      · rw [if_neg h]
        exact hwf.histNodup u
    · have hb := bucketCorrect_removeAllIPs email ud.ips acc.ipToUsers (listsIP acc)
        hwf.buckets
      refine bucketCorrect_congr (fun v x => ?_) hb
      unfold listsIP
      rw [history_expire]
      by_cases h : email = v
      · subst h
        rw [if_pos rfl]
        have hls : (x ∈ (history acc email).map IPData.ip) ↔
            x ∈ ud.ips.map IPData.ip := by rw [hud]
        simp only [hls, List.map_nil, List.not_mem_nil, iff_false]
        rintro ⟨hmem, hno⟩
        exact hno ⟨by trivial, hmem⟩
      · rw [if_neg h]
        have hv : ¬ v = email := fun hc => h hc.symm
        constructor
        · rintro ⟨hmem, -⟩
          exact hmem
        · intro hmem
          exact ⟨hmem, fun hc => hv hc.1⟩
  · rw [if_neg hcond]
    exact hwf

theorem lookup_expireUser_ne (acc : Store) (email : String) (ud : UserData)
    (E : Int) (q : String) (hq : ¬ email = q) :
    lookupKey (expireUser acc email ud E).userData q = lookupKey acc.userData q := by
  unfold expireUser
  by_cases hcond : mostRecentSeen ud.ips < E
  · rw [if_pos hcond]
    dsimp only
    rw [lookup_eraseKey, if_neg hq]
  · rw [if_neg hcond]

theorem expireUser_fields (acc : Store) (email : String) (ud : UserData) (E : Int) :
    (expireUser acc email ud E).maxIPsPerUser = acc.maxIPsPerUser ∧
    (expireUser acc email ud E).userDataTTL = acc.userDataTTL ∧
    (expireUser acc email ud E).debugLogging = acc.debugLogging ∧
    (expireUser acc email ud E).persistPath = acc.persistPath := by
  unfold expireUser
  by_cases hcond : mostRecentSeen ud.ips < E
  · rw [if_pos hcond]
    exact ⟨rfl, rfl, rfl, rfl⟩
  · rw [if_neg hcond]
    exact ⟨rfl, rfl, rfl, rfl⟩

theorem wf_foldExpire (l : List (String × UserData)) :
    ∀ (acc : Store) (E : Int),
    StoreWF acc →
    (∀ p ∈ l, lookupKey acc.userData p.1 = some p.2) →
    (l.map Prod.fst).Nodup →
    StoreWF (l.foldl (fun a p => expireUser a p.1 p.2 E) acc) := by
  induction l with
  | nil =>
      intro acc E hwf _ _
      simpa using hwf
  | cons p tl ih =>
      intro acc E hwf hlk hnd
      simp only [List.foldl_cons]
      simp only [List.map_cons, List.nodup_cons] at hnd
      apply ih
      · exact wf_expireUser acc p.1 p.2 E hwf (hlk p (List.mem_cons_self _ _))
      · intro q hq
        have hq1 : ¬ p.1 = q.1 := by
          intro hc
          exact hnd.1 (hc ▸ List.mem_map.mpr ⟨q, hq, rfl⟩)
        rw [lookup_expireUser_ne acc p.1 p.2 E q.1 hq1]
        exact hlk q (List.mem_cons_of_mem _ hq)
      · exact hnd.2

theorem wf_cleanup (s : Store) (now : Int) (hwf : StoreWF s) :
    StoreWF (cleanupExpiredUsers s now) := by
  unfold cleanupExpiredUsers
  apply wf_foldExpire s.userData s _ hwf _ hwf.keysNodup
  intro p hp
  exact mem_lookup hwf.keysNodup (by simpa using hp)

theorem wf_addUserIP (s : Store) (email ip : String) (now : Int)
    (nowISO : String) (hwf : StoreWF s) :
    StoreWF (addUserIP s email ip now nowISO).1 := by
  unfold addUserIP
  dsimp only
  split
  · exact wf_cleanup _ _ (wf_addUserIPCore s email ip now nowISO hwf)
  · exact wf_addUserIPCore s email ip now nowISO hwf

theorem wf_loadSnapshot (s : Store) (snap : Snapshot)
    (hsnap : SnapWF s.maxIPsPerUser snap) (hwf : StoreWF s) :
    StoreWF (loadSnapshot s snap) := by
  obtain ⟨hkeys, hper⟩ := hsnap
  have hhist : ∀ u, history (loadSnapshot s snap) u =
      match lookupKey snap u with
      | some ud => ud.ips
      | none => [] := fun u => rfl
  refine ⟨hkeys, ?_, ?_, ?_, hwf.maxPos⟩
  · intro u
    rw [hhist]
    cases hl : lookupKey snap u with
    | none => simp
    | some ud =>
        have hm := lookup_mem hl
        exact (hper (u, ud) hm).1
  · intro u
    rw [hhist]
    cases hl : lookupKey snap u with
    | none => simp
    | some ud =>
        have hm := lookup_mem hl
        exact (hper (u, ud) hm).2
  · have hb := bucketCorrect_rebuild snap
    refine bucketCorrect_congr (fun v x => ?_) hb
    unfold listsIP
    rw [hhist]
    cases hl : lookupKey snap v with
    | none =>
        simp only [List.map_nil, List.not_mem_nil, iff_false]
        rintro ⟨ud, hm, hx⟩
        rw [mem_lookup hkeys hm] at hl
        exact absurd hl (by simp)
    | some ud =>
        constructor
        · rintro ⟨ud', hm, hx⟩
          rw [mem_lookup hkeys hm] at hl
          injection hl with hl
          subst hl
          exact hx
        · intro hx
          exact ⟨ud, lookup_mem hl, hx⟩

theorem reachable_wf {s : Store} (h : Reachable s) : StoreWF s := by
  induction h with
  | init path maxIPs ttl debug hmax hpath => exact wf_initialStore path maxIPs ttl debug hmax
  | record s email ip now nowISO _ ih => exact wf_addUserIP s email ip now nowISO ih
  | sweep s now _ ih => exact wf_cleanup s now ih
  | load s snap hsnap _ ih => exact wf_loadSnapshot s snap hsnap ih

/-! Operational characterizations used by the claim theorems. -/

theorem extractIP_eq_none {l : List IPData} {ip : String}
    (h : ip ∉ l.map IPData.ip) : extractIP l ip = none := by
  induction l with
  | nil => rfl
  | cons d tl ih =>
      simp only [List.map_cons, List.mem_cons] at h
      push_neg at h
      have hd : ¬ d.ip = ip := fun hc => h.1 hc.symm
      rw [extractIP, if_neg hd, ih h.2]

theorem addUserIPCore_eq_new (s : Store) (email ip : String) (now : Int)
    (nowISO : String) (ud : UserData)
    (hlk : lookupKey s.userData email = some ud)
    (hex : extractIP ud.ips ip = none) :
    addUserIPCore s email ip now nowISO =
      addNewIPEntry s email ud ip now (if s.debugLogging then nowISO else "") := by
  unfold addUserIPCore
  rw [hlk]
  dsimp only
  rw [hex]

theorem addUserIPCore_eq_newUser (s : Store) (email ip : String) (now : Int)
    (nowISO : String) (hlk : lookupKey s.userData email = none) :
    addUserIPCore s email ip now nowISO =
      addNewIPEntry s email { ips := [], lastSeen := 0 } ip now
        (if s.debugLogging then nowISO else "") := by
  unfold addUserIPCore
  rw [hlk]

theorem addUserIPCore_eq_found (s : Store) (email ip : String) (now : Int)
    (nowISO : String) (ud : UserData) (e : IPData) (rest : List IPData)
    (hlk : lookupKey s.userData email = some ud)
    (hex : extractIP ud.ips ip = some (e, rest)) :
    addUserIPCore s email ip now nowISO =
      ({ s with
          userData := insertKey s.userData email
            { ud with ips := refreshEntry e now nowISO s.debugLogging :: rest }
          dirty := true }, false) := by
  unfold addUserIPCore
  rw [hlk]
  dsimp only
  rw [hex]

theorem addNewIPEntry_fields (s : Store) (email : String) (ud : UserData)
    (ip : String) (now : Int) (iso : String) :
    (addNewIPEntry s email ud ip now iso).1.maxIPsPerUser = s.maxIPsPerUser ∧
    (addNewIPEntry s email ud ip now iso).1.userDataTTL = s.userDataTTL ∧
    (addNewIPEntry s email ud ip now iso).1.debugLogging = s.debugLogging ∧
    (addNewIPEntry s email ud ip now iso).1.persistPath = s.persistPath := by
  unfold addNewIPEntry
  dsimp only
  exact ⟨rfl, rfl, rfl, rfl⟩

theorem addUserIPCore_fields (s : Store) (email ip : String) (now : Int)
    (nowISO : String) :
    (addUserIPCore s email ip now nowISO).1.maxIPsPerUser = s.maxIPsPerUser ∧
    (addUserIPCore s email ip now nowISO).1.userDataTTL = s.userDataTTL ∧
    (addUserIPCore s email ip now nowISO).1.debugLogging = s.debugLogging ∧
    (addUserIPCore s email ip now nowISO).1.persistPath = s.persistPath := by
  unfold addUserIPCore
  cases hlk : lookupKey s.userData email with
  | none =>
      dsimp only
      exact addNewIPEntry_fields s email _ ip now _
  | some ud =>
      dsimp only
      cases hex : extractIP ud.ips ip with
      | none =>
          dsimp only
          exact addNewIPEntry_fields s email ud ip now _
      | some pr =>
          obtain ⟨e, rest⟩ := pr
          dsimp only
          exact ⟨rfl, rfl, rfl, rfl⟩

theorem foldExpire_fields (l : List (String × UserData)) :
    ∀ (acc : Store) (E : Int),
    (l.foldl (fun a p => expireUser a p.1 p.2 E) acc).maxIPsPerUser = acc.maxIPsPerUser ∧
    (l.foldl (fun a p => expireUser a p.1 p.2 E) acc).userDataTTL = acc.userDataTTL ∧
    (l.foldl (fun a p => expireUser a p.1 p.2 E) acc).debugLogging = acc.debugLogging ∧
    (l.foldl (fun a p => expireUser a p.1 p.2 E) acc).persistPath = acc.persistPath := by
  induction l with
  | nil =>
      intro acc E
      exact ⟨rfl, rfl, rfl, rfl⟩
  | cons p tl ih =>
      intro acc E
      simp only [List.foldl_cons]
      obtain ⟨h1, h2, h3, h4⟩ := ih (expireUser acc p.1 p.2 E) E
      obtain ⟨g1, g2, g3, g4⟩ := expireUser_fields acc p.1 p.2 E
      exact ⟨h1.trans g1, h2.trans g2, h3.trans g3, h4.trans g4⟩

theorem cleanup_fields (s : Store) (now : Int) :
    (cleanupExpiredUsers s now).maxIPsPerUser = s.maxIPsPerUser ∧
    (cleanupExpiredUsers s now).userDataTTL = s.userDataTTL ∧
    (cleanupExpiredUsers s now).debugLogging = s.debugLogging ∧
    (cleanupExpiredUsers s now).persistPath = s.persistPath := by
  unfold cleanupExpiredUsers
  exact foldExpire_fields s.userData s _

theorem addUserIP_fields (s : Store) (email ip : String) (now : Int)
    (nowISO : String) :
    (addUserIP s email ip now nowISO).1.maxIPsPerUser = s.maxIPsPerUser ∧
    (addUserIP s email ip now nowISO).1.userDataTTL = s.userDataTTL ∧
    (addUserIP s email ip now nowISO).1.debugLogging = s.debugLogging ∧
    (addUserIP s email ip now nowISO).1.persistPath = s.persistPath := by
  unfold addUserIP
  dsimp only
  split
  · obtain ⟨h1, h2, h3, h4⟩ := cleanup_fields (addUserIPCore s email ip now nowISO).1 now
    obtain ⟨g1, g2, g3, g4⟩ := addUserIPCore_fields s email ip now nowISO
    exact ⟨h1.trans g1, h2.trans g2, h3.trans g3, h4.trans g4⟩
  · exact addUserIPCore_fields s email ip now nowISO

theorem lookup_none_iff {α : Type} (m : List (String × α)) (k : String) :
    lookupKey m k = none ↔ k ∉ m.map Prod.fst := by
  induction m with
  | nil => simp [lookupKey]
  | cons p rest ih =>
      obtain ⟨k', v'⟩ := p
      by_cases h : k' = k
      · subst h
        simp [lookupKey]
      · simp only [lookupKey, if_neg h, List.map_cons, List.mem_cons]
        rw [ih]
        constructor
        · intro hk
          rintro (hc | hc)
          · exact h hc.symm
          · exact hk hc
        · intro hk hc
          exact hk (Or.inr hc)

theorem lookup_foldExpire_notmem (l : List (String × UserData)) :
    ∀ (acc : Store) (E : Int) (u : String), u ∉ l.map Prod.fst →
    lookupKey ((l.foldl (fun a p => expireUser a p.1 p.2 E) acc)).userData u =
      lookupKey acc.userData u := by
  induction l with
  | nil =>
      intro acc E u _
      rfl
  | cons p tl ih =>
      intro acc E u hu
      simp only [List.map_cons, List.mem_cons] at hu
      push_neg at hu
      simp only [List.foldl_cons]
      rw [ih _ E u hu.2]
      exact lookup_expireUser_ne acc p.1 p.2 E u (fun hc => hu.1 hc.symm)

theorem lookup_foldExpire_mem (l : List (String × UserData)) :
    ∀ (acc : Store) (E : Int) (e : String) (ud : UserData),
    (l.map Prod.fst).Nodup → (e, ud) ∈ l →
    lookupKey ((l.foldl (fun a p => expireUser a p.1 p.2 E) acc)).userData e =
      (if mostRecentSeen ud.ips < E then none else lookupKey acc.userData e) := by
  induction l with
  | nil =>
      intro acc E e ud _ hm
      simp at hm
  | cons p tl ih =>
      intro acc E e ud hnd hm
      simp only [List.map_cons, List.nodup_cons] at hnd
      simp only [List.foldl_cons]
      rcases List.mem_cons.mp hm with hm | hm
      · have hp : p = (e, ud) := hm.symm
        subst hp
        dsimp only at hnd ⊢
        have hnotm : e ∉ tl.map Prod.fst := hnd.1
        rw [lookup_foldExpire_notmem tl _ E e hnotm]
        unfold expireUser
        by_cases hcond : mostRecentSeen ud.ips < E
        · rw [if_pos hcond, if_pos hcond]
          dsimp only
          rw [lookup_eraseKey, if_pos rfl]
        · rw [if_neg hcond, if_neg hcond]
      · have hne : ¬ p.1 = e := by
          intro hc
          exact hnd.1 (hc ▸ List.mem_map.mpr ⟨(e, ud), hm, rfl⟩)
        rw [ih _ E e ud hnd.2 hm, lookup_expireUser_ne acc p.1 p.2 E e hne]

theorem lookup_cleanup (s : Store) (now : Int) (u : String)
    (hnd : (s.userData.map Prod.fst).Nodup) :
    lookupKey (cleanupExpiredUsers s now).userData u =
      (match lookupKey s.userData u with
       | none => none
       | some ud =>
           if mostRecentSeen ud.ips < now - (s.userDataTTL : Int) then none
           else some ud) := by
  unfold cleanupExpiredUsers
  cases hl : lookupKey s.userData u with
  | none =>
      rw [lookup_foldExpire_notmem s.userData s _ u ((lookup_none_iff _ _).mp hl), hl]
  | some ud =>
      rw [lookup_foldExpire_mem s.userData s _ u ud hnd (lookup_mem hl), hl]

/-- The reverse index answers exactly the membership question, for any store
satisfying the invariant. -/
theorem hasIP_iff_wf (s : Store) (hwf : StoreWF s) (ip : String) :
    hasIP s ip = true ↔ ∃ u, ip ∈ (history s u).map IPData.ip := by
  unfold hasIP
  cases hl : lookupKey s.ipToUsers ip with
  | none =>
      constructor
      · intro hcon
        simp [Option.isSome] at hcon
      · rintro ⟨u, hmem⟩
        exact absurd hmem ((hwf.buckets ip).1 hl u)
  | some users =>
      obtain ⟨hne, hmem⟩ := (hwf.buckets ip).2 users hl
      constructor
      · intro _
        obtain ⟨u, hu⟩ := List.exists_mem_of_ne_nil users hne
        exact ⟨u, (hmem u).mp hu⟩
      · intro _
        rfl

/-! A lighter invariant: bounded duplicate-free histories. Unlike `StoreWF`
it holds for every configuration, including a zero bound. -/

def HistBoundNodup (s : Store) : Prop :=
  (s.userData.map Prod.fst).Nodup ∧
  ∀ u, (history s u).length ≤ s.maxIPsPerUser ∧
    ((history s u).map IPData.ip).Nodup

theorem hbn_addNewIPEntry (s : Store) (email : String) (ud : UserData)
    (ip : String) (now : Int) (iso : String) (h : HistBoundNodup s)
    (hud : history s email = ud.ips)
    (hnotin : ip ∉ ud.ips.map IPData.ip) :
    HistBoundNodup (addNewIPEntry s email ud ip now iso).1 := by
  have hndu : (ud.ips.map IPData.ip).Nodup := hud ▸ (h.2 email).2
  have hnd1 : ((newIPEntry ip now iso :: ud.ips).map IPData.ip).Nodup := by
    simp only [List.map_cons, List.nodup_cons]
    exact ⟨hnotin, hndu⟩
  by_cases hc : s.maxIPsPerUser < ud.ips.length + 1
  · rw [addNewIPEntry_eq_evict s email ud ip now iso hc]
    refine ⟨nodupKeys_insertKey _ _ h.1, fun u => ?_⟩
    rw [history_update2]
    by_cases hu : email = u
    · rw [if_pos hu]
      constructor
      · exact List.length_take_le _ _
      · rw [List.map_take]
        exact hnd1.sublist (List.take_sublist _ _)
    · rw [if_neg hu]
      exact h.2 u
  · have hfit : ud.ips.length + 1 ≤ s.maxIPsPerUser := by omega
    rw [addNewIPEntry_eq_noevict s email ud ip now iso hc]
    refine ⟨nodupKeys_insertKey _ _ h.1, fun u => ?_⟩
    rw [history_update2]
    by_cases hu : email = u
    · rw [if_pos hu]
      exact ⟨by simpa using hfit, hnd1⟩
    · rw [if_neg hu]
      exact h.2 u

theorem hbn_addUserIPCore (s : Store) (email ip : String) (now : Int)
    (nowISO : String) (h : HistBoundNodup s) :
    HistBoundNodup (addUserIPCore s email ip now nowISO).1 := by
  unfold addUserIPCore
  cases hlk : lookupKey s.userData email with
  | none =>
      dsimp only
      apply hbn_addNewIPEntry s email _ ip now _ h
      · unfold history
        rw [hlk]
      · simp
  | some ud =>
      dsimp only
      cases hex : extractIP ud.ips ip with
      | none =>
          dsimp only
          apply hbn_addNewIPEntry s email ud ip now _ h
          · unfold history
            rw [hlk]
          · exact extractIP_none hex
      | some pr =>
          obtain ⟨e, rest⟩ := pr
          dsimp only
          have hud : history s email = ud.ips := by
            unfold history
            rw [hlk]
          have hperm : ud.ips.Perm (e :: rest) := extractIP_perm hex
          have hpermmap : (ud.ips.map IPData.ip).Perm (e.ip :: rest.map IPData.ip) := by
            simpa using hperm.map IPData.ip
          refine ⟨nodupKeys_insertKey _ _ h.1, fun u => ?_⟩
          rw [history_update1]
          by_cases hu : email = u
          · rw [if_pos hu]
            constructor
            · have hlen : (e :: rest).length = ud.ips.length := (hperm.length_eq).symm
              have hb := hud ▸ (h.2 email).1
              simp only [List.length_cons] at hlen ⊢
              omega
            · have hnd : (ud.ips.map IPData.ip).Nodup := hud ▸ (h.2 email).2
              have := hpermmap.nodup_iff.mp hnd
              simpa [refreshEntry] using this
          · rw [if_neg hu]
            exact h.2 u

theorem hbn_expireUser (acc : Store) (email : String) (ud : UserData) (E : Int)
    (h : HistBoundNodup acc) : HistBoundNodup (expireUser acc email ud E) := by
  unfold expireUser
  by_cases hcond : mostRecentSeen ud.ips < E
  · rw [if_pos hcond]
    refine ⟨nodupKeys_eraseKey _ h.1, fun u => ?_⟩
    rw [history_expire]
    by_cases hu : email = u
    · rw [if_pos hu]
      simp
    · rw [if_neg hu]
      exact h.2 u
  · rw [if_neg hcond]
    exact h

theorem hbn_foldExpire (l : List (String × UserData)) :
    ∀ (acc : Store) (E : Int), HistBoundNodup acc →
    HistBoundNodup (l.foldl (fun a p => expireUser a p.1 p.2 E) acc) := by
  induction l with
  | nil =>
      intro acc E h
      exact h
  | cons p tl ih =>
      intro acc E h
      simp only [List.foldl_cons]
      exact ih _ E (hbn_expireUser acc p.1 p.2 E h)

theorem hbn_cleanup (s : Store) (now : Int) (h : HistBoundNodup s) :
    HistBoundNodup (cleanupExpiredUsers s now) := by
  unfold cleanupExpiredUsers
  exact hbn_foldExpire s.userData s _ h

theorem hbn_addUserIP (s : Store) (email ip : String) (now : Int)
    (nowISO : String) (h : HistBoundNodup s) :
    HistBoundNodup (addUserIP s email ip now nowISO).1 := by
  unfold addUserIP
  dsimp only
  split
  · exact hbn_cleanup _ _ (hbn_addUserIPCore s email ip now nowISO h)
  · exact hbn_addUserIPCore s email ip now nowISO h

theorem hbn_runRecords (calls : List RecordCall) :
    ∀ s : Store, HistBoundNodup s → HistBoundNodup (runRecords s calls) := by
  induction calls with
  | nil =>
      intro s h
      exact h
  | cons c tl ih =>
      intro s h
      unfold runRecords
      simp only [List.foldl_cons]
      exact ih _ (hbn_addUserIP s c.email c.ip c.now c.nowISO h)

theorem runRecords_maxIPs (calls : List RecordCall) :
    ∀ s : Store, (runRecords s calls).maxIPsPerUser = s.maxIPsPerUser := by
  induction calls with
  | nil =>
      intro s
      rfl
  | cons c tl ih =>
      intro s
      unfold runRecords
      simp only [List.foldl_cons]
      have h1 := ih (addUserIP s c.email c.ip c.now c.nowISO).1
      have h2 := (addUserIP_fields s c.email c.ip c.now c.nowISO).1
      unfold runRecords at h1
      exact h1.trans h2

/-! Round-trip lemmas for the persistence codec. -/

theorem decodeIPData_encode (d : IPData) : decodeIPData (encodeIPData d) = .ok d := by
  obtain ⟨dip, dls, diso⟩ := d
  by_cases hiso : diso = "" <;>
    simp [encodeIPData, decodeIPData, hiso, Except.bind, Bind.bind, Pure.pure,
      Except.pure]

theorem decodeIPArray_encode (l : List IPData) :
    decodeIPArray (l.map encodeIPData) = .ok l := by
  induction l with
  | nil => rfl
  | cons d tl ih =>
      simp [decodeIPArray, decodeIPData_encode, ih]

theorem decodeUserData_encode (ud : UserData) :
    decodeUserData (encodeUserData ud) = .ok ud := by
  obtain ⟨ips, ls⟩ := ud
  by_cases hls : ls = 0 <;>
    simp [encodeUserData, decodeUserData, decodeIPList, hls, decodeIPArray_encode,
      Except.bind, Bind.bind, Pure.pure, Except.pure]

theorem insertKey_fresh {α : Type} {m : List (String × α)} {k : String} (v : α)
    (h : k ∉ m.map Prod.fst) : insertKey m k v = m ++ [(k, v)] := by
  induction m with
  | nil => rfl
  | cons p rest ih =>
      simp only [List.map_cons, List.mem_cons] at h
      push_neg at h
      have hk : ¬ p.1 = k := fun hc => h.1 hc.symm
      obtain ⟨k', v'⟩ := p
      simp only [insertKey, if_neg hk, List.cons_append]
      rw [ih h.2]

theorem decodeUserEntries_encoded (snap : Snapshot) :
    ∀ acc : Snapshot,
    (snap.map Prod.fst).Nodup →
    (∀ k, k ∈ snap.map Prod.fst → k ∉ acc.map Prod.fst) →
    decodeUserEntries acc (snap.map (fun p => (p.1, encodeUserData p.2))) =
      .ok (acc ++ snap) := by
  induction snap with
  | nil =>
      intro acc _ _
      simp [decodeUserEntries]
  | cons p tl ih =>
      intro acc hnd hfresh
      simp only [List.map_cons, List.nodup_cons] at hnd
      simp only [List.map_cons, decodeUserEntries, decodeUserData_encode]
      have hfr : p.1 ∉ acc.map Prod.fst := by
        apply hfresh
        simp
      rw [insertKey_fresh p.2 hfr]
      have hfresh' : ∀ k, k ∈ tl.map Prod.fst → k ∉ (acc ++ [p]).map Prod.fst := by
        intro k hk
        simp only [List.map_append, List.mem_append, List.map_cons, List.map_nil,
          List.mem_singleton]
        push_neg
        constructor
        · exact hfresh k (by simp [hk])
        · intro hc
          exact hnd.1 (hc ▸ hk)
      rw [ih (acc ++ [p]) hnd.2 hfresh']
      simp

theorem sortByKey_eq_self {α : Type} (m : List (String × α))
    (h : m.Pairwise (fun a b => a.1 < b.1)) : sortByKey m = m := by
  induction m with
  | nil => rfl
  | cons p tl ih =>
      obtain ⟨hhead, htail⟩ := List.pairwise_cons.mp h
      unfold sortByKey at ih ⊢
      simp only [List.foldr_cons]
      rw [ih htail]
      cases tl with
      | nil => rfl
      | cons q rest =>
          unfold insertSortedKey
          rw [if_pos (le_of_lt (hhead q (List.mem_cons_self _ _)))]

theorem pairwise_lt_keys_nodup {α : Type} (m : List (String × α))
    (h : m.Pairwise (fun a b => a.1 < b.1)) : (m.map Prod.fst).Nodup := by
  unfold List.Nodup
  rw [List.pairwise_map]
  exact h.imp (fun hlt => ne_of_lt hlt)

theorem decodePersistData_encode (snap : Snapshot)
    (hsorted : snap.Pairwise (fun a b => a.1 < b.1)) :
    decodePersistData (encodePersistData snap) = .ok snap := by
  have h := decodeUserEntries_encoded snap [] (pairwise_lt_keys_nodup snap hsorted)
    (by simp)
  unfold encodePersistData decodePersistData
  rw [sortByKey_eq_self snap hsorted]
  simp [decodeTopFields, decodeUserMapInto, h]

/-! Concrete documents and stores used to instantiate the claim theorems. -/

/-- A legacy-schema document: one principal, a plain-string IP list, and a
principal-level timestamp. -/
def legacyDoc : Json :=
  .obj [("user_data",
    .obj [("u",
      .obj [("ips", .arr [.str "1.1.1.1"]), ("last_seen", .num 100)])])]

/-- A current-schema snapshot with sorted principal keys, used to witness the
round-trip theorem. -/
def snapRT : Snapshot :=
  [("alice", { ips := [{ ip := "1.1.1.1", lastSeen := 5, lastSeenISO := "" },
                       { ip := "2.2.2.2", lastSeen := 3, lastSeenISO := "t" }],
               lastSeen := 0 }),
   ("bob", { ips := [], lastSeen := 7 })]

/-! Claim theorems. -/

/-- C10: if the file at persist_path does not exist, LoadFromDisk returns
success, and on the freshly configured store this leaves no principals, an
empty reverse index, and a clear dirty flag — a missing snapshot file is not
a fatal load error. -/
theorem load_missing_file_succeeds_empty_not_dirty (path : String)
    (maxIPs ttl : Nat) (debug : Bool) (fmtISO : Int → String) :
    loadFromDisk (initialStore path maxIPs ttl debug) .absent fmtISO =
      .ok (initialStore path maxIPs ttl debug) ∧
    (initialStore path maxIPs ttl debug).userData = [] ∧
    (initialStore path maxIPs ttl debug).ipToUsers = [] ∧
    (initialStore path maxIPs ttl debug).dirty = false :=
  ⟨rfl, rfl, rfl, rfl⟩

/-- C7: Flush(false) on a clean store returns success and performs no
filesystem write, leaving the store (and hence the target file) unchanged;
Flush(true) always attempts the encode-and-write sequence regardless of the
dirty flag, and on a successful outcome it replaces the target file. -/
theorem flush_skips_when_clean_and_force_always_writes (s : Store)
    (out : WriteOutcome) :
    (s.dirty = false →
      persistToDisk s false out =
        { store := s, attempted := false, wrote := false, error := none }) ∧
    (persistToDisk s true out).attempted = true ∧
    (persistToDisk s true WriteOutcome.success).wrote = true := by
  refine ⟨fun hd => ?_, ?_, ?_⟩
  · unfold persistToDisk
    rw [hd]
    rfl
  · unfold persistToDisk
    have : (!s.dirty && !true) = false := by simp
    rw [this]
    cases out <;> rfl
  · unfold persistToDisk
    have : (!s.dirty && !true) = false := by simp
    rw [this]
    rfl

/-- C7 witness: on the freshly configured store, a non-forced flush is a
successful no-op and a forced flush attempts (and on success performs) the
write. -/
theorem flush_skips_when_clean_witness :
    (persistToDisk (initialStore "/data/user-ips.json" 5 0 false) false
        WriteOutcome.success =
      { store := initialStore "/data/user-ips.json" 5 0 false, attempted := false,
        wrote := false, error := none }) ∧
    (persistToDisk (initialStore "/data/user-ips.json" 5 0 false) true
        WriteOutcome.renameFailure).attempted = true ∧
    (persistToDisk (initialStore "/data/user-ips.json" 5 0 false) true
        WriteOutcome.success).wrote = true :=
  ⟨(flush_skips_when_clean_and_force_always_writes _ WriteOutcome.success).1 rfl,
   (flush_skips_when_clean_and_force_always_writes _ WriteOutcome.renameFailure).2.1,
   (flush_skips_when_clean_and_force_always_writes _ WriteOutcome.success).2.2⟩

/-- C8: whenever a PersistToDisk call returns an error (marshal, temp-file
write, or rename failure), the store — in particular its dirty flag — is left
exactly as it was, so a dirty store stays dirty for a later retry; whenever
the call returns success, the dirty flag ends cleared. -/
theorem flush_failure_preserves_dirty_success_clears (s : Store) (force : Bool)
    (out : WriteOutcome) :
    ((persistToDisk s force out).error.isSome = true →
      (persistToDisk s force out).store = s) ∧
    (s.dirty = true → (persistToDisk s force out).error.isSome = true →
      (persistToDisk s force out).store.dirty = true) ∧
    ((persistToDisk s force out).error = none →
      (persistToDisk s force out).store.dirty = false) := by
  unfold persistToDisk
  by_cases hskip : (!s.dirty && !force) = true
  · rw [if_pos hskip]
    refine ⟨fun hc => by simp at hc, fun hd hc => by simp at hc, fun _ => ?_⟩
    simp only [Bool.and_eq_true, Bool.not_eq_true'] at hskip
    exact hskip.1
  · rw [if_neg hskip]
    cases out with
    | success =>
        exact ⟨fun hc => by simp at hc, fun hd hc => by simp at hc, fun _ => rfl⟩
    | marshalFailure =>
        exact ⟨fun _ => rfl, fun hd _ => hd, fun hc => by simp at hc⟩
    | writeTempFailure =>
        exact ⟨fun _ => rfl, fun hd _ => hd, fun hc => by simp at hc⟩
    | renameFailure =>
        exact ⟨fun _ => rfl, fun hd _ => hd, fun hc => by simp at hc⟩

/-- C8 witness: on a dirty store, a failed temp-file write returns the error
and leaves the store dirty; a successful forced write clears the flag. -/
theorem flush_failure_preserves_dirty_witness :
    ((persistToDisk { initialStore "/p" 5 0 false with dirty := true } false
        WriteOutcome.writeTempFailure).store =
      { initialStore "/p" 5 0 false with dirty := true }) ∧
    ((persistToDisk { initialStore "/p" 5 0 false with dirty := true } false
        WriteOutcome.writeTempFailure).store.dirty = true) ∧
    ((persistToDisk { initialStore "/p" 5 0 false with dirty := true } true
        WriteOutcome.success).store.dirty = false) :=
  ⟨(flush_failure_preserves_dirty_success_clears _ false
      WriteOutcome.writeTempFailure).1 rfl,
   (flush_failure_preserves_dirty_success_clears _ false
      WriteOutcome.writeTempFailure).2.1 rfl rfl,
   (flush_failure_preserves_dirty_success_clears _ true
      WriteOutcome.success).2.2 rfl⟩

/-- C9: decoding the document produced by encoding a snapshot yields the
snapshot back, for every snapshot satisfying the data-model invariants (the
association list is the canonical key-sorted form of the Go map, and each
history is duplicate-free). -/
theorem decode_encode_roundtrip (snap : Snapshot)
    (hsorted : snap.Pairwise (fun a b => a.1 < b.1))
    (_hips : ∀ p ∈ snap, (p.2.ips.map IPData.ip).Nodup) :
    decodePersistData (encodePersistData snap) = .ok snap :=
  decodePersistData_encode snap hsorted

/-- C9 witness: the round trip on a concrete two-principal snapshot. -/
theorem decode_encode_roundtrip_witness :
    decodePersistData (encodePersistData snapRT) = .ok snapRT :=
  decode_encode_roundtrip snapRT
    (by
      refine List.pairwise_cons.mpr ⟨?_, ?_⟩
      · intro b hb
        simp only [snapRT, List.mem_singleton] at hb
        subst hb
        show ("alice" : String) < "bob"
        rw [String.lt_iff_toList_lt]
        decide
      · simp)
    (by decide)

/-- C1: contrary to the claim, LoadFromDisk FAILS on a legacy-schema
document: the first unmarshal into the current schema reports a type error
on the plain-string IP elements and LoadFromDisk returns it before the
migration probe ever runs (and even on the nominal migration path, line 627
resets the dirty flag to false before returning). This theorem evaluates
LoadFromDisk at the claim's own input class. -/
theorem loadFromDisk_errors_on_legacy_document :
    loadFromDisk (initialStore "/data/user-ips.json" 5 0 false)
        (.content legacyDoc) (fun _ => "") =
      .error "json: cannot unmarshal value into type IPData" := by
  decide

/-- C2: after any sequence of Record calls starting from the freshly
configured store, every principal's history holds at most max_ips_per_user
entries and no two entries share an IP string. -/
theorem record_histories_bounded_and_nodup (path : String) (maxIPs ttl : Nat)
    (debug : Bool) (calls : List RecordCall) (u : String) :
    (history (runRecords (initialStore path maxIPs ttl debug) calls) u).length ≤
      maxIPs ∧
    ((history (runRecords (initialStore path maxIPs ttl debug) calls) u).map
      IPData.ip).Nodup := by
  have h0 : HistBoundNodup (initialStore path maxIPs ttl debug) := by
    constructor
    · simp [initialStore]
    · intro v
      simp [history, initialStore, lookupKey]
  have h := hbn_runRecords calls _ h0
  have hm := runRecords_maxIPs calls (initialStore path maxIPs ttl debug)
  have hu := h.2 u
  rw [hm] at hu
  exact hu

/-- C3: in every state reachable by Record calls, expiry sweeps and loads of
well-formed snapshots from a validly configured store, HasIP(ip) answers true
exactly when some currently tracked principal's history contains ip, and the
reverse index never keeps a bucket with an empty principal set. -/
theorem hasIP_iff_some_principal_lists_ip (s : Store) (hr : Reachable s)
    (ip : String) :
    (hasIP s ip = true ↔ ∃ u, ip ∈ (history s u).map IPData.ip) ∧
    (∀ users, lookupKey s.ipToUsers ip = some users → users ≠ []) := by
  have hwf := reachable_wf hr
  exact ⟨hasIP_iff_wf s hwf ip, fun users hs => ((hwf.buckets ip).2 users hs).1⟩

/-- The store after one Record call on a fresh configuration, used to witness
the reverse-index theorem. -/
def reachS1 : Store :=
  (addUserIP (initialStore "/data/user-ips.json" 2 0 false) "u" "1.1.1.1" 1 "").1

/-- C3 witness: the equivalence instantiated on a concrete reachable store. -/
theorem hasIP_iff_witness :
    (hasIP reachS1 "1.1.1.1" = true ↔
      ∃ u, "1.1.1.1" ∈ (history reachS1 u).map IPData.ip) ∧
    (∀ users, lookupKey reachS1.ipToUsers "1.1.1.1" = some users → users ≠ []) := by
  unfold reachS1
  exact hasIP_iff_some_principal_lists_ip _
    (Reachable.record _ "u" "1.1.1.1" 1 ""
      (Reachable.init "/data/user-ips.json" 2 0 false (by decide) (by decide)))
    "1.1.1.1"

/-- C5: recording an IP already present in the principal's history refreshes
that entry's timestamp to now, moves it to the front (leaving it in place
when it already was first), keeps the history length unchanged, and returns
false. -/
theorem record_existing_ip_updates_and_moves_front (s : Store) (u ip : String)
    (now : Int) (nowISO : String) (ud : UserData) (e : IPData)
    (rest : List IPData)
    (hlk : lookupKey s.userData u = some ud)
    (hex : extractIP ud.ips ip = some (e, rest)) :
    (addUserIP s u ip now nowISO).2 = false ∧
    history (addUserIP s u ip now nowISO).1 u =
      refreshEntry e now nowISO s.debugLogging :: rest ∧
    (history (addUserIP s u ip now nowISO).1 u).length = ud.ips.length ∧
    (refreshEntry e now nowISO s.debugLogging).lastSeen = now ∧
    (refreshEntry e now nowISO s.debugLogging).ip = ip := by
  have hcore := addUserIPCore_eq_found s u ip now nowISO ud e rest hlk hex
  have hlen : ud.ips.length = rest.length + 1 := by
    have := (extractIP_perm hex).length_eq
    simpa using this
  unfold addUserIP
  rw [hcore]
  dsimp only
  simp only [Bool.false_and, Bool.false_eq_true, if_false]
  refine ⟨by trivial, ?_, ?_, by trivial, ?_⟩
  · rw [history_update1, if_pos rfl]
  · rw [history_update1, if_pos rfl]
    simp only [List.length_cons]
    omega
  · simpa [refreshEntry] using extractIP_ip hex

/-- The store after recording ("u", "1.1.1.1") at t = 0 on a fresh
configuration. -/
def mruS1 : Store :=
  (addUserIP (initialStore "/data/user-ips.json" 5 0 false) "u" "1.1.1.1" 0 "").1

/-- C5 witness: re-recording ("u", "1.1.1.1") at t = 10 returns false and
leaves the one-entry history with timestamp 10. -/
theorem record_existing_witness :
    (addUserIP mruS1 "u" "1.1.1.1" 10 "").2 = false ∧
    history (addUserIP mruS1 "u" "1.1.1.1" 10 "").1 "u" =
      [{ ip := "1.1.1.1", lastSeen := 10, lastSeenISO := "" }] := by
  have h := record_existing_ip_updates_and_moves_front mruS1 "u" "1.1.1.1" 10 ""
    { ips := [{ ip := "1.1.1.1", lastSeen := 0, lastSeenISO := "" }], lastSeen := 0 }
    { ip := "1.1.1.1", lastSeen := 0, lastSeenISO := "" } []
    (by decide) (by decide)
  refine ⟨h.1, ?_⟩
  rw [h.2.1]
  decide

theorem addUserIPCore_snd_true (s : Store) (u ip : String) (now : Int)
    (nowISO : String) (hnew : ip ∉ (history s u).map IPData.ip) :
    (addUserIPCore s u ip now nowISO).2 = true := by
  unfold addUserIPCore
  cases hlk : lookupKey s.userData u with
  | none =>
      dsimp only
      rw [addNewIPEntry]
  | some ud =>
      dsimp only
      have hud : history s u = ud.ips := by
        unfold history
        rw [hlk]
      rw [extractIP_eq_none (hud ▸ hnew)]
      dsimp only
      rw [addNewIPEntry]

theorem addUserIPCore_keysNodup (s : Store) (u ip : String) (now : Int)
    (nowISO : String) (hnd : (s.userData.map Prod.fst).Nodup) :
    ((addUserIPCore s u ip now nowISO).1.userData.map Prod.fst).Nodup := by
  unfold addUserIPCore
  cases hlk : lookupKey s.userData u with
  | none =>
      dsimp only
      unfold addNewIPEntry
      dsimp only
      exact nodupKeys_insertKey _ _ hnd
  | some ud =>
      dsimp only
      cases hex : extractIP ud.ips ip with
      | none =>
          dsimp only
          unfold addNewIPEntry
          dsimp only
          exact nodupKeys_insertKey _ _ hnd
      | some pr =>
          obtain ⟨e, rest⟩ := pr
          dsimp only
          exact nodupKeys_insertKey _ _ hnd

/-- Principal `p` is absent from the reverse-index bucket of `x` (either
there is no bucket, or the bucket's principal set does not contain p). -/
def NotInBucket (idx : List (String × List String)) (p x : String) : Prop :=
  ∀ users, lookupKey idx x = some users → p ∉ users

theorem removeUserFromIP_preserves_notInBucket
    (idx : List (String × List String)) (ip u p x : String)
    (h : NotInBucket idx p x) : NotInBucket (removeUserFromIP idx ip u) p x := by
  intro users' hl'
  unfold removeUserFromIP at hl'
  cases hold : lookupKey idx ip with
  | none =>
      rw [hold] at hl'
      exact h users' hl'
  | some users =>
      rw [hold] at hl'
      dsimp only at hl'
      by_cases hemp : users.filter (fun v => v ≠ u) = []
      · rw [if_pos hemp, lookup_eraseKey] at hl'
        by_cases hx : ip = x
        · rw [if_pos hx] at hl'
          exact absurd hl' (by simp)
        · rw [if_neg hx] at hl'
          exact h users' hl'
      · rw [if_neg hemp, lookup_insertKey] at hl'
        by_cases hx : ip = x
        · rw [if_pos hx] at hl'
          injection hl' with hl'
          subst hl'
          intro hmem
          have hpu : p ∈ users := (List.mem_filter.mp hmem).1
          exact h users (hx ▸ hold) hpu
        · rw [if_neg hx] at hl'
          exact h users' hl'

theorem removeAllIPs_preserves_notInBucket (ips : List IPData) :
    ∀ (idx : List (String × List String)) (u p x : String),
    NotInBucket idx p x → NotInBucket (removeAllIPs idx u ips) p x := by
  induction ips with
  | nil =>
      intro idx u p x h
      exact h
  | cons d tl ih =>
      intro idx u p x h
      unfold removeAllIPs
      simp only [List.foldl_cons]
      exact ih _ u p x (removeUserFromIP_preserves_notInBucket idx d.ip u p x h)

theorem expireUser_preserves_notInBucket (acc : Store) (e : String)
    (ud : UserData) (E : Int) (p x : String)
    (h : NotInBucket acc.ipToUsers p x) :
    NotInBucket (expireUser acc e ud E).ipToUsers p x := by
  unfold expireUser
  by_cases hcond : mostRecentSeen ud.ips < E
  · rw [if_pos hcond]
    exact removeAllIPs_preserves_notInBucket ud.ips acc.ipToUsers e p x h
  · rw [if_neg hcond]
    exact h

theorem foldExpire_preserves_notInBucket (l : List (String × UserData)) :
    ∀ (acc : Store) (E : Int) (p x : String),
    NotInBucket acc.ipToUsers p x →
    NotInBucket ((l.foldl (fun a q => expireUser a q.1 q.2 E) acc)).ipToUsers p x := by
  induction l with
  | nil =>
      intro acc E p x h
      exact h
  | cons q tl ih =>
      intro acc E p x h
      simp only [List.foldl_cons]
      exact ih _ E p x (expireUser_preserves_notInBucket acc q.1 q.2 E p x h)

theorem removeUserFromIP_self (idx : List (String × List String)) (ip p : String) :
    NotInBucket (removeUserFromIP idx ip p) p ip := by
  intro users' hl'
  unfold removeUserFromIP at hl'
  cases hold : lookupKey idx ip with
  | none =>
      rw [hold] at hl'
      rw [hold] at hl'
      exact absurd hl' (by simp)
  | some users =>
      rw [hold] at hl'
      dsimp only at hl'
      by_cases hemp : users.filter (fun v => v ≠ p) = []
      · rw [if_pos hemp, lookup_eraseKey, if_pos rfl] at hl'
        exact absurd hl' (by simp)
      · rw [if_neg hemp, lookup_insertKey, if_pos rfl] at hl'
        injection hl' with hl'
        subst hl'
        intro hmem
        have := (List.mem_filter.mp hmem).2
        simp at this

theorem removeAllIPs_self (ips : List IPData) :
    ∀ (idx : List (String × List String)) (p : String),
    ∀ x ∈ ips.map IPData.ip, NotInBucket (removeAllIPs idx p ips) p x := by
  induction ips with
  | nil =>
      intro idx p x hx
      simp at hx
  | cons d tl ih =>
      intro idx p x hx
      unfold removeAllIPs
      simp only [List.foldl_cons]
      simp only [List.map_cons, List.mem_cons] at hx
      rcases hx with hx | hx
      · subst hx
        exact removeAllIPs_preserves_notInBucket tl _ p p d.ip
          (removeUserFromIP_self idx d.ip p)
      · exact ih _ p x hx

theorem foldExpire_notInBucket_of_mem (l : List (String × UserData)) :
    ∀ (acc : Store) (E : Int) (p : String) (ud : UserData),
    (p, ud) ∈ l → mostRecentSeen ud.ips < E →
    ∀ x ∈ ud.ips.map IPData.ip,
    NotInBucket ((l.foldl (fun a q => expireUser a q.1 q.2 E) acc)).ipToUsers p x := by
  induction l with
  | nil =>
      intro acc E p ud hm
      simp at hm
  | cons q tl ih =>
      intro acc E p ud hm hexp x hx
      simp only [List.foldl_cons]
      rcases List.mem_cons.mp hm with hm | hm
      · have hq : q = (p, ud) := hm.symm
        subst hq
        dsimp only
        have hstep : NotInBucket (expireUser acc p ud E).ipToUsers p x := by
          unfold expireUser
          rw [if_pos hexp]
          exact removeAllIPs_self ud.ips acc.ipToUsers p x hx
        exact foldExpire_preserves_notInBucket tl _ E p x hstep
      · exact ih _ E p ud hm hexp x hx

/-- C6: with a positive TTL, a Record call that adds a new IP (and therefore
triggers the expiry sweep) removes exactly the principals whose most recent
sighting timestamp is strictly older than now - ttl — deleting the principal
and removing it from the reverse-index bucket of every IP in its history —
and retains (unchanged) every principal whose most recent sighting is at or
after that threshold. -/
theorem record_sweep_removes_exactly_expired (s : Store) (u ip : String)
    (now : Int) (nowISO : String)
    (httl : 0 < s.userDataTTL)
    (hnew : ip ∉ (history s u).map IPData.ip)
    (hnd : (s.userData.map Prod.fst).Nodup) :
    ∀ p ud, lookupKey (addUserIPCore s u ip now nowISO).1.userData p = some ud →
      (mostRecentSeen ud.ips < now - (s.userDataTTL : Int) →
        lookupKey (addUserIP s u ip now nowISO).1.userData p = none ∧
        ∀ x ∈ ud.ips.map IPData.ip, ∀ users,
          lookupKey (addUserIP s u ip now nowISO).1.ipToUsers x = some users →
            p ∉ users) ∧
      (now - (s.userDataTTL : Int) ≤ mostRecentSeen ud.ips →
        lookupKey (addUserIP s u ip now nowISO).1.userData p = some ud) := by
  intro p ud hlkp
  have hsnd := addUserIPCore_snd_true s u ip now nowISO hnew
  have hcnd : ((addUserIPCore s u ip now nowISO).2 &&
      decide (0 < s.userDataTTL)) = true := by
    rw [hsnd]
    simp [httl]
  have hadd : (addUserIP s u ip now nowISO).1 =
      cleanupExpiredUsers (addUserIPCore s u ip now nowISO).1 now := by
    unfold addUserIP
    rw [if_pos hcnd]
  have hkn := addUserIPCore_keysNodup s u ip now nowISO hnd
  have hcl := lookup_cleanup (addUserIPCore s u ip now nowISO).1 now p hkn
  rw [hlkp] at hcl
  have httl2 : (addUserIPCore s u ip now nowISO).1.userDataTTL = s.userDataTTL :=
    (addUserIPCore_fields s u ip now nowISO).2.1
  rw [httl2] at hcl
  constructor
  · intro hexp
    constructor
    · rw [hadd, hcl]
      show (if mostRecentSeen ud.ips < now - (s.userDataTTL : Int) then none
            else some ud) = (none : Option UserData)
      rw [if_pos hexp]
    · intro x hx users hl'
      have hmem : (p, ud) ∈ (addUserIPCore s u ip now nowISO).1.userData :=
        lookup_mem hlkp
      have hexp2 : mostRecentSeen ud.ips <
          now - ((addUserIPCore s u ip now nowISO).1.userDataTTL : Int) := by
        rw [httl2]
        exact hexp
      have hnb := foldExpire_notInBucket_of_mem
        (addUserIPCore s u ip now nowISO).1.userData
        (addUserIPCore s u ip now nowISO).1
        (now - ((addUserIPCore s u ip now nowISO).1.userDataTTL : Int))
        p ud hmem hexp2 x hx
      rw [hadd] at hl'
      unfold cleanupExpiredUsers at hl'
      exact hnb users hl'
  · intro hkeep
    rw [hadd, hcl]
    show (if mostRecentSeen ud.ips < now - (s.userDataTTL : Int) then none
          else some ud) = some ud
    rw [if_neg (not_lt.mpr hkeep)]

/-- A store with one stale principal (last sighting at t = 0) and one fresh
principal (last sighting at t = 5), TTL 10 seconds. -/
def expS : Store :=
  (addUserIP
    (addUserIP (initialStore "/data/user-ips.json" 5 10 false) "old" "7.7.7.7" 0 "").1
    "fresh" "8.8.8.8" 5 "").1

/-- C6 witness: recording a new IP at t = 12 sweeps out the principal whose
most recent sighting (t = 0) predates the threshold t = 2, removes it from
the reverse-index bucket of its IP (here the bucket disappears, so
HasIP("7.7.7.7") becomes false), and retains the principal last seen at
t = 5. -/
theorem record_sweep_witness :
    lookupKey (addUserIP expS "u" "9.9.9.9" 12 "").1.userData "old" = none ∧
    (∀ users, lookupKey (addUserIP expS "u" "9.9.9.9" 12 "").1.ipToUsers
        "7.7.7.7" = some users → "old" ∉ users) ∧
    hasIP (addUserIP expS "u" "9.9.9.9" 12 "").1 "7.7.7.7" = false ∧
    lookupKey (addUserIP expS "u" "9.9.9.9" 12 "").1.userData "fresh" =
      some { ips := [{ ip := "8.8.8.8", lastSeen := 5, lastSeenISO := "" }],
             lastSeen := 0 } := by
  have h := record_sweep_removes_exactly_expired expS "u" "9.9.9.9" 12 ""
    (by decide) (by decide) (by decide)
  have hold := (h "old"
    { ips := [{ ip := "7.7.7.7", lastSeen := 0, lastSeenISO := "" }], lastSeen := 0 }
    (by decide)).1 (by decide)
  refine ⟨hold.1, hold.2 "7.7.7.7" (by decide), by decide, ?_⟩
  exact (h "fresh"
    { ips := [{ ip := "8.8.8.8", lastSeen := 5, lastSeenISO := "" }], lastSeen := 0 }
    (by decide)).2 (by decide)

theorem addUserIP_snd (s : Store) (email ip : String) (now : Int)
    (nowISO : String) :
    (addUserIP s email ip now nowISO).2 = (addUserIPCore s email ip now nowISO).2 := by
  unfold addUserIP
  dsimp only
  split <;> rfl

/-- C4: recording a new IP for a principal whose history is full evicts
exactly the oldest (last) entry: the call returns true, the new history is
the new entry followed by all previous entries except the last, and the
evicted entry's IP satisfies HasIP afterwards exactly when some other
principal still lists it. -/
theorem record_new_ip_evicts_oldest (s : Store) (u ip : String) (now : Int)
    (nowISO : String) (ud : UserData)
    (hr : Reachable s)
    (hlk : lookupKey s.userData u = some ud)
    (hfull : ud.ips.length = s.maxIPsPerUser)
    (hnew : ip ∉ ud.ips.map IPData.ip) :
    (addUserIP s u ip now nowISO).2 = true ∧
    history (addUserIP s u ip now nowISO).1 u =
      newIPEntry ip now (if s.debugLogging then nowISO else "") :: ud.ips.dropLast ∧
    (∀ e, ud.ips.getLast? = some e →
      (hasIP (addUserIP s u ip now nowISO).1 e.ip = true ↔
        ∃ v, v ≠ u ∧ e.ip ∈ (history (addUserIP s u ip now nowISO).1 v).map
          IPData.ip)) := by
  set iso := (if s.debugLogging then nowISO else "") with hiso
  have hwf := reachable_wf hr
  have hmax : 0 < s.maxIPsPerUser := hwf.maxPos
  have hud : history s u = ud.ips := by
    unfold history
    rw [hlk]
  have hndu : (ud.ips.map IPData.ip).Nodup := hud ▸ hwf.histNodup u
  have hne : ud.ips ≠ [] := by
    intro hcon
    rw [hcon] at hfull
    simp at hfull
    omega
  rcases List.eq_nil_or_concat' ud.ips with hnil | ⟨init, lastE, hsplit⟩
  · exact absurd hnil hne
  have hc : s.maxIPsPerUser < ud.ips.length + 1 := by omega
  have hcore := addUserIPCore_eq_new s u ip now nowISO ud hlk (extractIP_eq_none hnew)
  have hev := addNewIPEntry_eq_evict s u ud ip now iso hc
  have hLen : init.length + 1 = s.maxIPsPerUser := by
    rw [hsplit] at hfull
    simpa using hfull
  have htake : (newIPEntry ip now iso :: ud.ips).take s.maxIPsPerUser =
      newIPEntry ip now iso :: init := by
    rw [hsplit, ← hLen, List.take_succ_cons, List.take_left]
  have happ : (ud.ips.map IPData.ip) = init.map IPData.ip ++ [lastE.ip] := by
    rw [hsplit]
    simp
  have hndapp : (init.map IPData.ip ++ [lastE.ip]).Nodup := happ ▸ hndu
  have hlastnotinit : lastE.ip ∉ init.map IPData.ip := by
    intro hmem
    rcases List.nodup_append.mp hndapp with ⟨-, -, hdis⟩
    exact hdis hmem (by simp)
  have hlastne : lastE.ip ≠ ip := by
    intro hcon
    apply hnew
    rw [← hcon, happ]
    simp
  have hmidlk :
      lookupKey (addUserIPCore s u ip now nowISO).1.userData u =
        some { ud with ips := newIPEntry ip now iso :: init } := by
    rw [hcore, hev]
    dsimp only
    rw [lookup_insertKey, if_pos rfl, htake]
  have hsnd : (addUserIP s u ip now nowISO).2 = true := by
    rw [addUserIP_snd, hcore, hev]
  have hlkfinal :
      lookupKey (addUserIP s u ip now nowISO).1.userData u =
        some { ud with ips := newIPEntry ip now iso :: init } := by
    unfold addUserIP
    dsimp only
    by_cases httl : 0 < s.userDataTTL
    · have hcnd : ((addUserIPCore s u ip now nowISO).2 &&
          decide (0 < s.userDataTTL)) = true := by
        rw [hcore, hev]
        simp [httl]
      rw [if_pos hcnd]
      dsimp only
      have hkn := addUserIPCore_keysNodup s u ip now nowISO hwf.keysNodup
      rw [lookup_cleanup (addUserIPCore s u ip now nowISO).1 now u hkn, hmidlk]
      have hge : now ≤ mostRecentSeen (newIPEntry ip now iso :: init) :=
        mostRecentSeen_cons_ge _ init
      have hge0 : 0 ≤ mostRecentSeen (newIPEntry ip now iso :: init) :=
        mostRecentSeen_nonneg _
      have httlI : 1 ≤ ((addUserIPCore s u ip now nowISO).1.userDataTTL : Int) := by
        have hf := (addUserIPCore_fields s u ip now nowISO).2.1
        rw [hf]
        exact_mod_cast httl
      have hnexp : ¬ (mostRecentSeen
          ({ ud with ips := newIPEntry ip now iso :: init } : UserData).ips <
            now - ((addUserIPCore s u ip now nowISO).1.userDataTTL : Int)) := by
        dsimp only
        omega
      show (if mostRecentSeen
          ({ ud with ips := newIPEntry ip now iso :: init } : UserData).ips <
            now - ((addUserIPCore s u ip now nowISO).1.userDataTTL : Int)
          then none else some { ud with ips := newIPEntry ip now iso :: init }) =
        some { ud with ips := newIPEntry ip now iso :: init }
      rw [if_neg hnexp]
    · have hcnd : ((addUserIPCore s u ip now nowISO).2 &&
          decide (0 < s.userDataTTL)) = false := by
        simp [httl]
      rw [hcnd]
      simp only [Bool.false_eq_true, if_false]
      exact hmidlk
  have hhist : history (addUserIP s u ip now nowISO).1 u =
      newIPEntry ip now iso :: ud.ips.dropLast := by
    unfold history
    rw [hlkfinal]
    rw [hsplit]
    simp
  refine ⟨hsnd, hhist, ?_⟩
  intro e hlast
  have helast : e = lastE := by
    rw [hsplit, List.getLast?_concat] at hlast
    injection hlast with hlast
    exact hlast.symm
  subst helast
  have hwf2 : StoreWF (addUserIP s u ip now nowISO).1 :=
    wf_addUserIP s u ip now nowISO hwf
  have hiff := hasIP_iff_wf (addUserIP s u ip now nowISO).1 hwf2 e.ip
  have hnotu : e.ip ∉
      (history (addUserIP s u ip now nowISO).1 u).map IPData.ip := by
    rw [hhist]
    simp only [List.map_cons, List.mem_cons]
    rintro (hcon | hcon)
    · exact hlastne (by simpa [newIPEntry] using hcon)
    · apply hlastnotinit
      have hdl : ud.ips.dropLast = init := by
        rw [hsplit]
        simp
      rw [hdl] at hcon
      exact hcon
  rw [hiff]
  constructor
  · rintro ⟨v, hv⟩
    refine ⟨v, ?_, hv⟩
    intro hcon
    subst hcon
    exact hnotu hv
  · rintro ⟨v, -, hv⟩
    exact ⟨v, hv⟩

/-- The claim's eviction scenario: max_ips_per_user = 2 and two recorded IPs
for principal u. -/
def evictS : Store :=
  (addUserIP
    (addUserIP (initialStore "/data/user-ips.json" 2 0 false) "u" "1.1.1.1" 1 "").1
    "u" "2.2.2.2" 2 "").1

/-- C4 witness: recording a third IP with a full two-entry history returns
true, leaves the history ["3.3.3.3", "2.2.2.2"], satisfies the eviction
equivalence for the evicted entry, and makes HasIP("1.1.1.1") false. -/
theorem record_new_ip_evicts_witness :
    (addUserIP evictS "u" "3.3.3.3" 3 "").2 = true ∧
    history (addUserIP evictS "u" "3.3.3.3" 3 "").1 "u" =
      [{ ip := "3.3.3.3", lastSeen := 3, lastSeenISO := "" },
       { ip := "2.2.2.2", lastSeen := 2, lastSeenISO := "" }] ∧
    (hasIP (addUserIP evictS "u" "3.3.3.3" 3 "").1 "1.1.1.1" = true ↔
      ∃ v, v ≠ "u" ∧ "1.1.1.1" ∈
        (history (addUserIP evictS "u" "3.3.3.3" 3 "").1 v).map IPData.ip) ∧
    hasIP (addUserIP evictS "u" "3.3.3.3" 3 "").1 "1.1.1.1" = false := by
  have h := record_new_ip_evicts_oldest evictS "u" "3.3.3.3" 3 ""
    { ips := [{ ip := "2.2.2.2", lastSeen := 2, lastSeenISO := "" },
              { ip := "1.1.1.1", lastSeen := 1, lastSeenISO := "" }], lastSeen := 0 }
    (Reachable.record _ "u" "2.2.2.2" 2 ""
      (Reachable.record _ "u" "1.1.1.1" 1 ""
        (Reachable.init "/data/user-ips.json" 2 0 false (by decide) (by decide))))
    (by decide) (by decide) (by decide)
  refine ⟨h.1, ?_, ?_, ?_⟩
  · rw [h.2.1]
    decide
  · exact h.2.2 { ip := "1.1.1.1", lastSeen := 1, lastSeenISO := "" } (by decide)
  · decide

end CaddyUserIP

